import Mathlib

/-!
Shallow embedding of the polyply core (apply_links.py, map_to_molecule.py,
build_system.py) together with the parts of its vermouth/networkx
dependencies that those functions call (attribute matching, interaction
storage, graph edge insertion).  All definitions are translated from the
Python source; machine integers are modelled as `Int`/`Nat` (Python ints are
unbounded, so no wrap-around is involved), Python exceptions as
`Except`/explicit error flags, and in-place mutation as explicit state
passing.
-/

namespace Polyply

/-- Attribute values stored on graph nodes / in meta dictionaries.
`choice` models `vermouth.molecule.Choice` (a link attribute that matches any
of a list of strings); the other constructors model plain Python values. -/
inductive AttrVal where
  | str (s : String)
  | int (n : Int)
  | bool (b : Bool)
  | choice (l : List String)
deriving DecidableEq

/-- A node-attribute dictionary (`molecule.nodes[n]` in networkx): an
association list, first occurrence wins on lookup. -/
abbrev NodeAttrs := List (String × AttrVal)

/-- Python `d[k]` / `d.get(k)` on an attribute dictionary. -/
def getAttr (attrs : NodeAttrs) (k : String) : Option AttrVal :=
  (attrs.find? (fun kv => kv.1 = k)).map (·.2)

/-- Python `d[k] = v`: replace the value if the key is present, else append. -/
def setAttr (attrs : NodeAttrs) (k : String) (v : AttrVal) : NodeAttrs :=
  if attrs.any (fun kv => kv.1 = k) then
    attrs.map (fun kv => if kv.1 = k then (k, v) else kv)
  else attrs ++ [(k, v)]

/-- Python truthiness of a meta-dictionary value (`if link.molecule_meta["explicit"]:`). -/
def truthy : AttrVal → Bool
  | .str s => !(s = "")
  | .int n => !(n = 0)
  | .bool b => b
  | .choice l => !l.isEmpty

/-- One template attribute matching one node attribute, as in
`vermouth.molecule.attributes_match`: a `Choice` value matches when the node's
value is one of the listed strings, any other value must be equal to the
node's value (`attributes.get(attr) != value` fails on a missing key). -/
def attrValMatch (node : NodeAttrs) (k : String) (v : AttrVal) : Bool :=
  match v with
  | .choice l =>
      match getAttr node k with
      | some (.str s) => l.contains s
      | _ => false
  | v => getAttr node k == some v

/-- `vermouth.molecule.attributes_match(node, query, ignore_keys)`: every
query key outside `ignore` must match. -/
def attributesMatch (node : NodeAttrs) (query : NodeAttrs) (ignore : List String) : Bool :=
  query.all (fun kv => ignore.contains kv.1 || attrValMatch node kv.1 kv.2)

/-- An interaction parameter: either a literal token or a deferred parameter
(`callable(param)` in `_build_link_interaction_from`), evaluated against the
molecule's node attributes and the link-to-molecule match at application time
(vermouth's parameter effectors read node attributes such as positions). -/
inductive Param where
  | lit (s : String)
  | deferred (f : List NodeAttrs → List (Int × Nat) → String)

/-- A bonded interaction record (`vermouth.molecule.Interaction`). -/
structure Interaction where
  atoms : List Int
  parameters : List Param
  meta : NodeAttrs

/-- The key under which `add_or_replace_interaction` identifies an existing
interaction: its atom tuple together with `meta.get('version', 0)`. -/
def keyOf (i : Interaction) : List Int × AttrVal :=
  (i.atoms, (getAttr i.meta "version").getD (.int 0))

/-- `vermouth.molecule.Molecule.add_or_replace_interaction` restricted to one
interaction list: replace the first entry with the same atoms and version,
else append. -/
def aor : List Interaction → Interaction → List Interaction
  | [], i => [i]
  | j :: rest, i => if keyOf j = keyOf i then i :: rest else j :: aor rest i

/-- Folding `aor` over a sequence of interactions. -/
def aorAll (l : List Interaction) (is_ : List Interaction) : List Interaction :=
  is_.foldl aor l

/-- A vermouth molecule as used by `apply_links.py`: atoms are the node ids
`0 .. nodes.length - 1` (node `i` carries `nodes[i]`), plain graph edges, and
the per-type interaction lists (`defaultdict(list)` keyed by type). -/
structure Molecule where
  nodes : List NodeAttrs
  edges : List (Nat × Nat)
  interactions : List (String × List Interaction)

/-- `add_or_replace_interaction` acting on the per-type table: update the
bucket of the interaction's type, creating it when absent. -/
def applyOp : List (String × List Interaction) → String × Interaction →
    List (String × List Interaction)
  | [], op => [(op.1, [op.2])]
  | (t, b) :: rest, op =>
      if t = op.1 then (t, aor b op.2) :: rest else (t, b) :: applyOp rest op

/-- Folding `applyOp` over a sequence of typed interactions. -/
def applyOps (M : List (String × List Interaction)) (ops : List (String × Interaction)) :
    List (String × List Interaction) :=
  ops.foldl applyOp M

/-- Membership of an undirected edge in an edge list (either orientation). -/
def edgeIn (es : List (Nat × Nat)) (e : Nat × Nat) : Bool :=
  es.any (fun d => (d.1 = e.1 && d.2 = e.2) || (d.1 = e.2 && d.2 = e.1))

/-- networkx `add_edge` on an undirected graph: a no-op when the edge is
already present in either orientation. -/
def addEdge (es : List (Nat × Nat)) (e : Nat × Nat) : List (Nat × Nat) :=
  if edgeIn es e then es else es ++ [e]

/-- networkx `add_edges_from`. -/
def addEdges (es : List (Nat × Nat)) (news : List (Nat × Nat)) : List (Nat × Nat) :=
  news.foldl addEdge es

/-- A vermouth link: pattern node ids in iteration order, their attribute
dictionaries, the interactions to instantiate, and `molecule_meta` (where the
`explicit` flag lives). -/
structure Link where
  nodes : List Int
  nodeAttrs : List (Int × NodeAttrs)
  interactions : List (String × List Interaction)
  molecule_meta : NodeAttrs

/-- The attribute dictionary of a link pattern node. -/
def linkAttrsOf (link : Link) (n : Int) : NodeAttrs :=
  ((link.nodeAttrs.find? (fun p => p.1 = n)).map (·.2)).getD []

/-- `find_atoms(molecule, **attrs)` from apply_links.py, with the popped
`ignore` entry passed separately: all molecule node ids whose attributes
match the query outside the ignored keys. -/
def find_atoms (nodes : List NodeAttrs) (ignore : List String) (attrs : NodeAttrs) :
    List Nat :=
  (List.range nodes.length).filter (fun i => attributesMatch (nodes.getD i []) attrs ignore)

/-- The residue id assigned to link node `n` by
`nx.set_node_attributes(link, dict(zip(link.nodes, resids)), 'resid')`. -/
def residOf (link : Link) (resids : List Int) (n : Int) : Option Int :=
  ((link.nodes.zip resids).find? (fun p => p.1 = n)).map (·.2)

/-- The effective query attributes of link node `n` after the resid
assignment (nodes beyond the zip keep their original attributes). -/
def effAttrs (link : Link) (resids : List Int) (n : Int) : NodeAttrs :=
  match residOf link resids n with
  | some r => setAttr (linkAttrsOf link n) "resid" (.int r)
  | none => linkAttrsOf link n

/-- The link pattern nodes paired with their effective query attributes, in
link-node iteration order. -/
def assignedNodes (link : Link) (resids : List Int) : List (Int × NodeAttrs) :=
  link.nodes.map (fun n => (n, effAttrs link resids n))

/-- The keys ignored during link matching
(`attrs.update({'ignore':['order', 'charge_group']})`). -/
def linkIgnore : List String := ["order", "charge_group"]

/-- Errors raised by `apply_link_between_residues`: `matchError` models the
`MatchError` raised when a pattern node does not match exactly one atom,
`keyError` a Python `KeyError` (a missing dictionary key while formatting the
message or looking up the match). -/
inductive ApplyError where
  | matchError
  | keyError
deriving DecidableEq

/-- The exception raised when matching fails for a node with query `attrs`:
the message is formatted from `attrs["atomname"]` and `attrs["resid"]`, so a
missing key raises `KeyError` instead of `MatchError`. -/
def matchFailError (attrs : NodeAttrs) : ApplyError :=
  match getAttr attrs "atomname", getAttr attrs "resid" with
  | some _, some _ => .matchError
  | _, _ => .keyError

/-- The matching loop of `apply_link_between_residues`: for each pattern node
in order, find the matching atoms; exactly one is required, otherwise the
loop raises.  Returns the `link_to_mol` mapping. -/
def resolveNodes (nodes : List NodeAttrs) :
    List (Int × NodeAttrs) → Except ApplyError (List (Int × Nat))
  | [] => .ok []
  | (n, attrs) :: rest =>
      match find_atoms nodes linkIgnore attrs with
      | [m] => (resolveNodes nodes rest).map (fun tl => (n, m) :: tl)
      | _ => .error (matchFailError attrs)

/-- `match[idx]`: look up a link atom in the `link_to_mol` mapping
(`KeyError` when absent). -/
def lookupMap (mapping : List (Int × Nat)) (a : Int) : Except ApplyError Nat :=
  match mapping.find? (fun p => p.1 = a) with
  | some p => .ok p.2
  | none => .error .keyError

/-- Evaluate one parameter as in `_build_link_interaction_from`:
`param(molecule, match) if callable(param) else param`. -/
def evalParam (nodes : List NodeAttrs) (mapping : List (Int × Nat)) : Param → Param
  | .lit s => .lit s
  | .deferred f => .lit (f nodes mapping)

/-- Build the concrete interaction and the bond edges that one link
interaction contributes: atoms remapped through `link_to_mol`, parameters
evaluated, and an edge for each consecutive pair of the interaction's atoms. -/
def compileOne (nodes : List NodeAttrs) (mapping : List (Int × Nat)) (t : String)
    (i : Interaction) : Except ApplyError ((String × Interaction) × List (Nat × Nat)) := do
  let atoms' ← i.atoms.mapM (lookupMap mapping)
  let params' := i.parameters.map (evalParam nodes mapping)
  let pairs := i.atoms.zip i.atoms.tail
  let edges' ← pairs.mapM (fun p => do
    let a ← lookupMap mapping p.1
    let b ← lookupMap mapping p.2
    pure (a, b))
  pure ((t, ⟨atoms'.map Int.ofNat, params', i.meta⟩), edges')

/-- Apply one link interaction to the molecule:
`molecule.add_or_replace_interaction(...)` followed by
`molecule.add_edges_from(new_edges)`. -/
def applyOne (mol : Molecule) (mapping : List (Int × Nat)) (t : String)
    (i : Interaction) : Except ApplyError Molecule :=
  (compileOne mol.nodes mapping t i).map (fun c =>
    { mol with interactions := applyOp mol.interactions c.1,
               edges := addEdges mol.edges c.2 })

/-- The application loop of `apply_link_between_residues` over one
interaction type. -/
def applyBucket (mapping : List (Int × Nat)) (t : String) (mol : Molecule)
    (is_ : List Interaction) : Except ApplyError Molecule :=
  is_.foldlM (fun m i => applyOne m mapping t i) mol

/-- The application loop of `apply_link_between_residues` over all
interaction types of the link. -/
def applyInteractions (mapping : List (Int × Nat)) (mol : Molecule)
    (L : List (String × List Interaction)) : Except ApplyError Molecule :=
  L.foldlM (fun m tb => applyBucket mapping tb.1 m tb.2) mol

/-- `apply_link_between_residues(molecule, link, resids)` from apply_links.py:
assign the candidate resids to the pattern nodes, require a unique matching
atom per pattern node (else `MatchError`), then copy every link interaction
into the molecule and synthesize the bond edges.  The molecule is only
modified after the whole mapping is established (the matching loop is
read-only on the molecule), which the `Except` result makes explicit: on an
error no molecule state is produced. -/
def apply_link_between_residues (mol : Molecule) (link : Link) (resids : List Int) :
    Except ApplyError Molecule := do
  let mapping ← resolveNodes mol.nodes (assignedNodes link resids)
  applyInteractions mapping mol link.interactions

/-- The list of molecule atoms matching pattern node `n` of the link under
the candidate resid assignment. -/
def matchesFor (mol : Molecule) (link : Link) (resids : List Int) (n : Int) : List Nat :=
  find_atoms mol.nodes linkIgnore (effAttrs link resids n)

/-- One interaction of an explicit link after the in-place conversion
`interaction.atoms[:] = [int(atom) - 1 for atom in interaction.atoms]`.
Atoms are modelled as integers, so the `ValueError` branch for atoms that
cannot be converted to `int` is not reachable here. -/
def convInter (i : Interaction) : Interaction :=
  { i with atoms := i.atoms.map (fun a => a - 1) }

/-- `set(interaction.atoms).issubset(set(molecule.nodes))` for an `N`-atom
molecule whose node ids are `0 .. N-1`. -/
def atomsValid (nNodes : Nat) (i : Interaction) : Bool :=
  i.atoms.all (fun a => decide (0 ≤ a) && decide (a < (nNodes : Int)))

/-- The inner loop of `apply_explicit_link` over the interactions of one
type: converts each interaction's atom list in place, collects the converted
interactions to append, and stops at the first interaction whose converted
atoms are not all molecule nodes (the `IOError`).  Returns (the type's
interaction list as left behind in the link, the `new_interactions` to
append, whether the loop raised). -/
def convertInters (nNodes : Nat) :
    List Interaction → List Interaction × List Interaction × Bool
  | [] => ([], [], false)
  | i :: rest =>
      let i' := convInter i
      if atomsValid nNodes i' then
        let r := convertInters nNodes rest
        (i' :: r.1, i' :: r.2.1, r.2.2)
      else
        (i' :: rest, [], true)

/-- The outer loop of `apply_explicit_link` over the interaction types of the
link: each type's interactions are converted and checked, and only after the
whole type succeeded are its `new_interactions` committed; the first failure
aborts, leaving later types untouched and uncommitted.  Returns (the link's
interaction table as left behind, the per-type lists committed to the
molecule, whether the loop raised). -/
def aelAux (nNodes : Nat) :
    List (String × List Interaction) →
    List (String × List Interaction) × List (String × List Interaction) × Bool
  | [] => ([], [], false)
  | (t, l) :: rest =>
      let c := convertInters nNodes l
      if c.2.2 then ((t, c.1) :: rest, [], true)
      else
        let r := aelAux nNodes rest
        ((t, c.1) :: r.1, (t, c.2.1) :: r.2.1, r.2.2)

/-- `molecule.interactions[inter_type] += new_interactions` on a
`defaultdict(list)`: extend the bucket, creating it when absent (even when
the extension is empty). -/
def extendBucket (M : List (String × List Interaction)) (t : String)
    (l : List Interaction) : List (String × List Interaction) :=
  if M.any (fun tb => tb.1 = t) then
    M.map (fun tb => if tb.1 = t then (t, tb.2 ++ l) else tb)
  else M ++ [(t, l)]

/-- `apply_explicit_link(molecule, link)` from apply_links.py: interpret each
interaction's atoms as literal 1-based indices, convert them to 0-based in
place inside the link, and append them (per type, after the whole type
checked out) to the molecule; an atom outside the molecule raises `IOError`.
Returns the molecule, the mutated link, and whether an error was raised. -/
def apply_explicit_link (mol : Molecule) (link : Link) : Molecule × Link × Bool :=
  let r := aelAux mol.nodes.length link.interactions
  (r.2.1.foldl (fun m tb => { m with interactions := extendBucket m.interactions tb.1 tb.2 }) mol,
   { link with interactions := r.1 },
   r.2.2)

/-- Map a function over every interaction atom of a per-type table (used to
state what the in-place conversion does to the link). -/
def mapInterAtoms (f : Int → Int) (L : List (String × List Interaction)) :
    List (String × List Interaction) :=
  L.map (fun tb => (tb.1, tb.2.map (fun i => { i with atoms := i.atoms.map f })))

/-- The force field as seen by `apply_links.py`: its ordered list of links. -/
structure ForceField where
  links : List Link

/-- A `MetaMolecule` (residue graph): residue-graph nodes with their
attribute dictionaries (resname, links flag, ...), undirected edges, and the
force field it refers to. -/
structure MetaMolecule where
  nodes : List (Int × NodeAttrs)
  edges : List (Int × Int)
  force_field : ForceField

/-- The node ids of the residue graph. -/
def MetaMolecule.nodeIds (meta : MetaMolecule) : List Int :=
  meta.nodes.map (·.1)

/-- The attribute dictionary of residue-graph node `n`. -/
def metaAttrsOf (meta : MetaMolecule) (n : Int) : NodeAttrs :=
  ((meta.nodes.find? (fun p => p.1 = n)).map (·.2)).getD []

/-- `self.nodes[n]["resname"]` on the residue graph (defaulting to the empty
string where Python would raise `KeyError` on a node without the attribute). -/
def metaResname (meta : MetaMolecule) (n : Int) : String :=
  match getAttr (metaAttrsOf meta n) "resname" with
  | some (.str s) => s
  | _ => ""

/-- `MetaMolecule.get_edge_resname` from meta_molecule.py. -/
def get_edge_resname (meta : MetaMolecule) (edge : Int × Int) : List String :=
  [metaResname meta edge.1, metaResname meta edge.2]

/-- Undirected adjacency in an edge list. -/
def adjacentB (edges : List (Int × Int)) (a b : Int) : Bool :=
  edges.any (fun e => (e.1 = a && e.2 = b) || (e.1 = b && e.2 = a))

/-- One breadth-first frontier expansion: the unsettled nodes adjacent to the
current frontier. -/
def bfsStep (edges : List (Int × Int)) (nodes : List Int)
    (settled : List (Int × Nat)) (frontier : List Int) : List Int :=
  nodes.filter (fun n =>
    settled.all (fun p => !(p.1 = n)) && frontier.any (fun f => adjacentB edges f n))

/-- Fuelled breadth-first search accumulating shortest-path distances. -/
def bfsAux (edges : List (Int × Int)) (nodes : List Int) :
    Nat → List (Int × Nat) → List Int → Nat → List (Int × Nat)
  | 0, settled, _, _ => settled
  | fuel + 1, settled, frontier, d =>
      let nf := bfsStep edges nodes settled frontier
      if nf.isEmpty then settled
      else bfsAux edges nodes fuel (settled ++ nf.map (fun n => (n, d + 1))) nf (d + 1)

/-- `nx.single_source_dijkstra_path_length(graph, node)` on the residue graph
(all edge weights are 1, so shortest paths are breadth-first distances):
the reachable nodes with their distances from `src`. -/
def distMap (meta : MetaMolecule) (src : Int) : List (Int × Nat) :=
  bfsAux meta.edges meta.nodeIds meta.nodeIds.length [(src, 0)] [src] 0

/-- The shortest-path distance from `src` to `tgt` on the residue graph
(`none` when unreachable). -/
def dist (meta : MetaMolecule) (src tgt : Int) : Option Nat :=
  ((distMap meta src).find? (fun p => p.1 = tgt)).map (·.2)

/-- `neighborhood(graph, node, degree)` from apply_links.py: the nodes whose
shortest-path distance `l` from `node` satisfies `0 < l <= degree` (the node
itself and unreachable nodes are excluded). -/
def neighborhood (meta : MetaMolecule) (node : Int) (degree : Nat) : List Int :=
  meta.nodeIds.filter (fun n =>
    match dist meta node n with
    | some l => decide (0 < l) && decide (l ≤ degree)
    | none => false)

/-- A link pattern node's `order` attribute: a literal integer offset or a
wildcard (any non-`int` value, e.g. the string `*`). -/
inductive LOrder where
  | fixed (k : Int)
  | wild
deriving DecidableEq

/-- Convert an order attribute value as `isinstance(order, int)` does
(Python `bool` is an `int` subtype). -/
def toLOrder : AttrVal → LOrder
  | .int k => .fixed k
  | .bool b => .fixed (if b then 1 else 0)
  | _ => .wild

/-- `nx.get_node_attributes(link, "order").values()`: the order attributes of
the link's pattern nodes that carry one, in node iteration order. -/
def ordersOf (link : Link) : List LOrder :=
  link.nodes.filterMap (fun n => (getAttr (linkAttrsOf link n) "order").map toLOrder)

/-- One step of the candidate-tuple construction in `get_subgraphs`: a fixed
order appends `edge[0] + order` to every partial tuple, a wildcard order
takes the product with the neighborhood of `edge[0]`. -/
def subgraphStep (meta : MetaMolecule) (u : Int) (deg : Nat)
    (acc : List (List Int)) : LOrder → List (List Int)
  | .fixed k => acc.map (fun s => s ++ [u + k])
  | .wild => acc.flatMap (fun s => (neighborhood meta u deg).map (fun n => s ++ [n]))

/-- The candidate residue-id tuples of `get_subgraphs`. -/
def buildIdxss (meta : MetaMolecule) (orders : List LOrder) (u : Int) :
    List (List Int) :=
  orders.foldl (subgraphStep meta u (orders.length - 1)) [[]]

/-- The connectivity pattern built from one candidate tuple: an edge between
each pair of consecutive distinct ids. -/
def pathGraphOf (idxs : List Int) : List (Int × Int) :=
  (idxs.zip idxs.tail).foldl
    (fun es p =>
      if p.1 = p.2 then es
      else if es.any (fun d => (d.1 = p.1 && d.2 = p.2) || (d.1 = p.2 && d.2 = p.1))
      then es else es ++ [p])
    []

/-- `get_subgraphs(meta_molecule, orders, edge)` from apply_links.py:
`list(orders).index(0)` raises `ValueError` when no order equals `0`;
otherwise build the candidate tuples (fixed orders contribute
`edge[0] + order`, each wildcard ranges over the nodes within graph distance
`len(orders) - 1` of `edge[0]`) and their connectivity patterns. -/
def get_subgraphs (meta : MetaMolecule) (orders : List LOrder) (edge : Int × Int) :
    Except String (List (List (Int × Int)) × List (List Int)) :=
  if orders.contains (.fixed 0) then
    let idxss := buildIdxss meta orders edge.1
    .ok (idxss.map pathGraphOf, idxss)
  else .error "ValueError"

/-- The node set of a candidate connectivity pattern (the endpoints of its
edges, as networkx collects them through `add_edge`). -/
def candNodes (es : List (Int × Int)) : List Int :=
  (es.flatMap (fun e => [e.1, e.2])).dedup

/-- All injective assignments of the nodes of `dom` to nodes of `cod`. -/
def injections : List Int → List Int → List (List (Int × Int))
  | [], _ => [[]]
  | d :: ds, cod =>
      cod.flatMap (fun c => (injections ds (cod.erase c)).map (fun m => (d, c) :: m))

/-- Assignment lookup inside one injection. -/
def injGet (m : List (Int × Int)) (a : Int) : Int :=
  ((m.find? (fun p => p.1 = a)).map (·.2)).getD 0

/-- `is_subgraph(graph1, graph2)` from apply_links.py:
`isomorphism.GraphMatcher(graph1, graph2).subgraph_is_isomorphic()` — whether
`graph2` is isomorphic to a node-induced subgraph of `graph1` (here `graph1`
is the residue graph and `graph2` a candidate connectivity pattern given by
its edge list). -/
def is_subgraph (meta : MetaMolecule) (cand : List (Int × Int)) : Bool :=
  let vs := candNodes cand
  (injections vs meta.nodeIds).any (fun m =>
    vs.all (fun a => vs.all (fun b =>
      adjacentB cand a b == adjacentB meta.edges (injGet m a) (injGet m b))))

/-- `_get_link_resnames(link)` from apply_links.py: the union of the
`resname` attributes of the link's pattern nodes, flattening `Choice`
values (`name.value`) and keeping plain values as they are. -/
def _get_link_resnames (link : Link) : List String :=
  (link.nodes.filterMap (fun n => getAttr (linkAttrsOf link n) "resname")).foldl
    (fun acc v =>
      match v with
      | .choice l => acc ++ l
      | .str s => acc ++ [s]
      | _ => acc)
    []

/-- The body of `_get_links` for one link of the force field: skipped
entirely when `"explicit" in link.molecule_meta` (whatever its value — a
truthy value hits `continue` and a falsy one falls through the `if`/`elif`
without reaching the resname branch); otherwise kept once per order-matching
candidate whose connectivity pattern embeds in the residue graph, with the
candidate resids shifted by one. -/
def _get_links_one (meta : MetaMolecule) (edge : Int × Int) (res_names : List String)
    (link : Link) : Except String (List Link × List (List Int)) :=
  if (getAttr link.molecule_meta "explicit").isSome then
    .ok ([], [])
  else
    if res_names.getD 0 "" ∈ _get_link_resnames link ∧
       res_names.getD 1 "" ∈ _get_link_resnames link then do
      let gr ← get_subgraphs meta (ordersOf link) edge
      let kept := (gr.1.zip gr.2).filter (fun p => is_subgraph meta p.1)
      pure (kept.map (fun _ => link), kept.map (fun p => p.2.map (fun i => i + 1)))
    else .ok ([], [])

/-- The loop of `_get_links` over the force field's links. -/
def _get_links_go (meta : MetaMolecule) (edge : Int × Int) (res_names : List String) :
    List Link → Except String (List Link × List (List Int))
  | [] => .ok ([], [])
  | link :: rest => do
      let h ← _get_links_one meta edge res_names link
      let r ← _get_links_go meta edge res_names rest
      pure (h.1 ++ r.1, h.2 ++ r.2)

/-- `_get_links(meta_molecule, edge)` from apply_links.py: for a residue-graph
edge, the candidate links and their candidate residue-id assignments. -/
def _get_links (meta : MetaMolecule) (edge : Int × Int) :
    Except String (List Link × List (List Int)) :=
  _get_links_go meta edge (get_edge_resname meta edge) meta.force_field.links

/-- A vermouth block as consumed by `MapToMolecule.expand_meta_graph`: its
atom node keys in iteration order, their attribute dictionaries (`resid`,
`resname`), and the graph edges materialized from its bond interactions
(`block.make_edges_from_interaction_type(type_="bonds")`, a vermouth call
that turns every bond interaction's atom pair into a plain edge). -/
structure Block where
  atoms : List Nat
  attrs : List (Nat × NodeAttrs)
  edges : List (Nat × Nat)

/-- The attribute dictionary of a block atom. -/
def blockAttrsOf (block : Block) (a : Nat) : NodeAttrs :=
  ((block.attrs.find? (fun p => p.1 = a)).map (·.2)).getD []

/-- The `resid` attribute of a block atom (all block atoms carry one). -/
def blockResid (block : Block) (a : Nat) : Int :=
  match getAttr (blockAttrsOf block a) "resid" with
  | some (.int r) => r
  | _ => 0

/-- The `resname` attribute of a block atom, when present. -/
def blockResname (block : Block) (a : Nat) : Option String :=
  match getAttr (blockAttrsOf block a) "resname" with
  | some (.str s) => some s
  | _ => none

/-- `node_to_resid[node]` in `expand_meta_graph`: the residue-graph node a
block atom is sent to when expanding at node `k`
(`resid + meta_mol_node - 1` unless the atom's resid equals `k`). -/
def node_to_resid (block : Block) (k : Int) (a : Nat) : Int :=
  let r := blockResid block a
  if r ≠ k then r + k - 1 else r

/-- Insert into an association list with overwrite (Python dict update). -/
def dictSet (d : List (Int × String)) (key : Int) (v : String) : List (Int × String) :=
  if d.any (fun p => p.1 = key) then
    d.map (fun p => if p.1 = key then (key, v) else p)
  else d ++ [(key, v)]

/-- `name_dict` of `expand_meta_graph`: new residue-graph node id to resname,
built over the block atoms in iteration order (later atoms overwrite). -/
def nameDict (block : Block) (k : Int) : List (Int × String) :=
  block.atoms.foldl
    (fun d a =>
      match blockResname block a with
      | some s => dictSet d (node_to_resid block k a) s
      | none => d)
    []

/-- networkx `add_edge` on `Int` node ids. -/
def addEdgeI (es : List (Int × Int)) (e : Int × Int) : List (Int × Int) :=
  if es.any (fun d => (d.1 = e.1 && d.2 = e.2) || (d.1 = e.2 && d.2 = e.1)) then es
  else es ++ [e]

/-- `MapToMolecule.expand_meta_graph(meta_molecule, block, meta_mol_node)`
from map_to_molecule.py: renumber every residue-graph node above `k` by
`offset = len(set(resids)) - 1`, send each block atom to
`node_to_resid`, add the missing nodes, set their `resname` and `links`
attributes, and add a residue-graph edge for every block bond whose atoms
land on two different residue-graph nodes. -/
def expand_meta_graph (meta : MetaMolecule) (block : Block) (k : Int) : MetaMolecule :=
  let offset : Int := ((block.atoms.map (blockResid block)).dedup).length - 1
  let shiftUp : Int → Int := fun n => if n > k then n + offset else n
  let nodes1 := meta.nodes.map (fun p => (shiftUp p.1, p.2))
  let edges1 := meta.edges.map (fun e => (shiftUp e.1, shiftUp e.2))
  let newIds := (block.atoms.map (node_to_resid block k)).dedup
  let nodes2 := newIds.foldl
    (fun ns id_ => if ns.any (fun p => p.1 = id_) then ns else ns ++ [(id_, [])]) nodes1
  let nodes3 := (nameDict block k).foldl
    (fun ns p => ns.map (fun q =>
      if q.1 = p.1 then (q.1, setAttr q.2 "resname" (.str p.2)) else q)) nodes2
  let nodes4 := (nameDict block k).foldl
    (fun ns p => ns.map (fun q =>
      if q.1 = p.1 then (q.1, setAttr q.2 "links" (.bool false)) else q)) nodes3
  let edges2 := block.edges.foldl
    (fun es e =>
      let v1 := node_to_resid block k e.1
      let v2 := node_to_resid block k e.2
      if v1 ≠ v2 then addEdgeI es (v1, v2) else es)
    edges1
  { nodes := nodes4, edges := edges2, force_field := meta.force_field }

/-- A 3-d vector with rational coordinates (numpy float arithmetic modelled
exactly; none of the verified claims depends on rounding). -/
abbrev Vec3 := ℚ × ℚ × ℚ

/-- Componentwise vector addition. -/
def vadd (a b : Vec3) : Vec3 := (a.1 + b.1, a.2.1 + b.2.1, a.2.2 + b.2.2)

/-- Scalar multiplication. -/
def vsmul (c : ℚ) (v : Vec3) : Vec3 := (c * v.1, c * v.2.1, c * v.2.2)

/-- A molecule as seen by `_rescale_system`: the optional `position`
attribute of each of its nodes `0, 1, ...`. -/
abbrev BMol := List (Option Vec3)

/-- `positions[nodes_to_gdx[(mol_idx, node)]]`: the flat position-table index
of a molecule node. -/
def gndx (n2g : List ((Nat × Nat) × Nat)) (i j : Nat) : Nat :=
  ((n2g.find? (fun p => p.1 = (i, j))).map (·.2)).getD 0

/-- Commit one translated molecule's positions into the flat table. -/
def updTable (n2g : List ((Nat × Nat) × Nat)) (i : Nat) (mol : BMol)
    (positions : List Vec3) (tv : Vec3) : List Vec3 :=
  (List.range mol.length).foldl
    (fun ps j =>
      match mol.getD j none with
      | some p => ps.set (gndx n2g i j) (vadd p tv)
      | none => ps)
    positions

/-- The loop of `_rescale_system` from build_system.py, with the unit-vector
function `u_vect` (from linalg_functions, outside the embedded sources)
passed as a parameter: skip molecules whose node 0 has no position; for the
first molecule whose node 0 has a position, translate all its positioned
nodes by `u_vect(position of node 0) * scale_factor` and `return positions`
immediately — the `return` sits inside the `for` loop, so no later molecule
is touched; if no molecule qualifies the function falls through and returns
`None`. -/
def rescaleAux (uvect : Vec3 → Vec3) (scale : ℚ) (n2g : List ((Nat × Nat) × Nat)) :
    Nat → List BMol → List Vec3 → List BMol × Option (List Vec3)
  | _, [], _ => ([], none)
  | i, mol :: rest, positions =>
      match mol.getD 0 none with
      | none =>
          let r := rescaleAux uvect scale n2g (i + 1) rest positions
          (mol :: r.1, r.2)
      | some p0 =>
          let tv := vsmul scale (uvect p0)
          let mol' := mol.map (fun op => op.map (fun p => vadd p tv))
          (mol' :: rest, some (updTable n2g i mol positions tv))

/-- `_rescale_system(topology, scale_factor, nodes_to_gdx, positions)` from
build_system.py: returns the molecules' position state after the call and
the value the function returns (`none` models Python's implicit `None`). -/
def _rescale_system (uvect : Vec3 → Vec3) (mols : List BMol) (scale : ℚ)
    (n2g : List ((Nat × Nat) × Nat)) (positions : List Vec3) :
    List BMol × Option (List Vec3) :=
  rescaleAux uvect scale n2g 0 mols positions

/-- The retry loop of `BuildSystem._handle_random_walk`, with the outcome of
each random-walk attempt supplied by `oracle` (the `RandomWalk` processor and
its randomness live outside the embedded sources): attempt, return success
immediately, give up once `step_count` reaches `maxiter`.  Returns the
success flag and the number of attempts made. -/
def hrwAux (oracle : Nat → Bool) : Nat → Nat → Bool × Nat
  | 0, i => if oracle i then (true, i + 1) else (false, i + 1)
  | n + 1, i => if oracle i then (true, i + 1) else hrwAux oracle n (i + 1)

/-- `BuildSystem._handle_random_walk` (success flag, attempts made). -/
def handle_random_walk (maxiter : Nat) (oracle : Nat → Bool) : Bool × Nat :=
  hrwAux oracle maxiter 0

/-- The state of the `while mol_idx < mol_tot` loop of
`BuildSystem._compose_system`: the index of the molecule being placed, the
number of rescale rounds performed so far, and the box edge length
(`self.maxdim`, one scalar since the box is cubic). -/
structure ComposeState where
  molIdx : Nat
  rescales : Nat
  maxdim : ℚ
deriving DecidableEq

/-- One iteration of the `_compose_system` placement loop: run the
random-walk handler for the current molecule; on success advance `mol_idx`,
on failure multiply the box edge by the fixed factor 1.1, rescale, and retry
the same molecule.  `oracle n` gives the walk outcomes of the `n`-th loop
iteration. -/
def composeStep (maxiter molTot : Nat) (oracle : Nat → Nat → Bool)
    (s : ComposeState) : ComposeState :=
  if s.molIdx < molTot then
    if (handle_random_walk maxiter (oracle (s.molIdx + s.rescales))).1 then
      { s with molIdx := s.molIdx + 1 }
    else
      { s with rescales := s.rescales + 1, maxdim := s.maxdim * (11 / 10) }
  else s

/-- `n` iterations of the `_compose_system` placement loop (the loop itself
has no iteration bound; the fuel only lets us observe finite prefixes). -/
def composeRun (maxiter molTot : Nat) (oracle : Nat → Nat → Bool) :
    Nat → ComposeState → ComposeState
  | 0, s => s
  | n + 1, s => composeRun maxiter molTot oracle n (composeStep maxiter molTot oracle s)

/-- The interaction keys stored in a bucket, in order. -/
def kset (l : List Interaction) : List (List Int × AttrVal) := l.map keyOf

/-- The interaction types stored in a per-type table, in order. -/
def tset (M : List (String × List Interaction)) : List String := M.map (·.1)

/-- The bucket of type `t` in a per-type table (empty when absent). -/
def bucketD (M : List (String × List Interaction)) (t : String) : List Interaction :=
  ((M.find? (fun tb => tb.1 = t)).map (·.2)).getD []

/-- The interactions of type `t` in a flat op sequence, in order. -/
def itemsFor (t : String) (ops : List (String × Interaction)) : List Interaction :=
  ops.filterMap (fun op => if op.1 = t then some op.2 else none)

/-- Compile the interactions of one link interaction type, in order, stopping
at the first failing one. -/
def compileBucket (nodes : List NodeAttrs) (mapping : List (Int × Nat)) (t : String) :
    List Interaction →
    Except ApplyError (List ((String × Interaction) × List (Nat × Nat)))
  | [] => .ok []
  | i :: rest => do
      let c ← compileOne nodes mapping t i
      let cs ← compileBucket nodes mapping t rest
      pure (c :: cs)

/-- Compile all interactions of a link into the flat sequence of
(add-or-replace op, synthesized edges) pairs that applying the link commits. -/
def compileAll (nodes : List NodeAttrs) (mapping : List (Int × Nat)) :
    List (String × List Interaction) →
    Except ApplyError (List ((String × Interaction) × List (Nat × Nat)))
  | [] => .ok []
  | (t, is_) :: rest => do
      let c ← compileBucket nodes mapping t is_
      let r ← compileAll nodes mapping rest
      pure (c ++ r)

/-- Commit a compiled sequence to the molecule: every add-or-replace op in
order, and every synthesized edge in order. -/
def commitAll (mol : Molecule)
    (cs : List ((String × Interaction) × List (Nat × Nat))) : Molecule :=
  { mol with interactions := applyOps mol.interactions (cs.map (·.1)),
             edges := addEdges mol.edges (cs.flatMap (·.2)) }

/-- A molecule with two atoms carrying identical attributes (a duplicated
candidate atom), used to exercise the MatchError path. -/
def dupMol : Molecule :=
  { nodes := [[("atomname", .str "C1"), ("resid", .int 1)],
              [("atomname", .str "C1"), ("resid", .int 1)]],
    edges := [], interactions := [] }

/-- A one-node link matching atom name `C1`. -/
def dupLink : Link :=
  { nodes := [0],
    nodeAttrs := [(0, [("atomname", .str "C1"), ("order", .int 0)])],
    interactions := [("bonds", [⟨[0, 0], [.lit "1"], []⟩])],
    molecule_meta := [] }

/-- A two-atom molecule with distinct atom names. -/
def okMol : Molecule :=
  { nodes := [[("atomname", .str "A1"), ("resid", .int 1)],
              [("atomname", .str "A2"), ("resid", .int 2)]],
    edges := [], interactions := [] }

/-- A two-node link with one bond interaction, matching `okMol` uniquely. -/
def okLink : Link :=
  { nodes := [0, 1],
    nodeAttrs := [(0, [("atomname", .str "A1"), ("order", .int 0)]),
                  (1, [("atomname", .str "A2"), ("order", .int 1)])],
    interactions := [("bonds", [⟨[0, 1], [.lit "1", .lit "0.37"], []⟩])],
    molecule_meta := [] }

/-- The result of applying `okLink` to `okMol` with resids `[1, 2]`. -/
def okMolRes : Molecule :=
  { nodes := okMol.nodes,
    edges := [(0, 1)],
    interactions := [("bonds", [⟨[0, 1], [.lit "1", .lit "0.37"], []⟩])] }

/-- A one-atom molecule (its only node id is 0). -/
def oneMol : Molecule :=
  { nodes := [[("atomname", .str "A")]], edges := [], interactions := [] }

/-- An explicit link whose second interaction type refers to atom 5 of a
one-atom molecule (invalid after the 1-based to 0-based conversion), while
its first type is valid. -/
def expLinkBad : Link :=
  { nodes := [], nodeAttrs := [],
    interactions := [("bonds", [⟨[1], [.lit "x"], []⟩]), ("angles", [⟨[5], [], []⟩])],
    molecule_meta := [("explicit", .bool true)] }

/-- An explicit link whose single interaction is valid on a one-atom
molecule. -/
def expLinkOk : Link :=
  { nodes := [], nodeAttrs := [],
    interactions := [("bonds", [⟨[1], [.lit "x"], []⟩])],
    molecule_meta := [("explicit", .bool true)] }

/-- A two-atom molecule for the double-application example. -/
def twoMol : Molecule :=
  { nodes := [[("atomname", .str "A")], [("atomname", .str "B")]],
    edges := [], interactions := [] }

/-- An explicit link referring (1-based) to atom 2 of a two-atom molecule:
valid on the first application and, after the in-place conversion, still
valid (but shifted) on a second one. -/
def twoLink : Link :=
  { nodes := [], nodeAttrs := [],
    interactions := [("bonds", [⟨[2], [.lit "x"], []⟩])],
    molecule_meta := [("explicit", .bool true)] }

/-- `twoLink` after one in-place conversion (atoms decremented once). -/
def twoLink1 : Link :=
  { twoLink with interactions := [("bonds", [⟨[1], [.lit "x"], []⟩])] }

/-- `twoLink` after two in-place conversions (atoms decremented twice). -/
def twoLink2 : Link :=
  { twoLink with interactions := [("bonds", [⟨[0], [.lit "x"], []⟩])] }

/-- `twoMol` after receiving `twoLink`'s converted interaction. -/
def twoMolR1 : Molecule :=
  { twoMol with interactions := [("bonds", [⟨[1], [.lit "x"], []⟩])] }

/-- `twoMol` after receiving `twoLink1`'s re-converted interaction. -/
def twoMolR2 : Molecule :=
  { twoMol with interactions := [("bonds", [⟨[0], [.lit "x"], []⟩])] }

/-- A two-residue link (orders 0 and 1) for residue name `A`, flagged
`explicit: False` in its molecule_meta. -/
def expFalseLink : Link :=
  { nodes := [0, 1],
    nodeAttrs := [(0, [("resname", .str "A"), ("order", .int 0), ("atomname", .str "C1")]),
                  (1, [("resname", .str "A"), ("order", .int 1), ("atomname", .str "C1")])],
    interactions := [("bonds", [⟨[0, 1], [.lit "1"], []⟩])],
    molecule_meta := [("explicit", .bool false)] }

/-- The same link without any `explicit` entry. -/
def noExpLink : Link :=
  { nodes := expFalseLink.nodes,
    nodeAttrs := expFalseLink.nodeAttrs,
    interactions := expFalseLink.interactions,
    molecule_meta := [] }

/-- A two-residue A-A meta molecule whose force field holds `expFalseLink`. -/
def metaExpFalse : MetaMolecule :=
  { nodes := [(0, [("resname", .str "A")]), (1, [("resname", .str "A")])],
    edges := [(0, 1)],
    force_field := ⟨[expFalseLink]⟩ }

/-- The same meta molecule with `noExpLink` in the force field instead. -/
def metaNoExp : MetaMolecule :=
  { nodes := metaExpFalse.nodes,
    edges := metaExpFalse.edges,
    force_field := ⟨[noExpLink]⟩ }

/-- A three-residue linear meta molecule 0-1-2. -/
def pathMeta : MetaMolecule :=
  { nodes := [(0, [("resname", .str "A")]), (1, [("resname", .str "A")]),
              (2, [("resname", .str "A")])],
    edges := [(0, 1), (1, 2)],
    force_field := ⟨[]⟩ }

/-- A two-residue block (resids 1 and 2, resnames R1 and R2) with one bond
connecting its two residues. -/
def mixBlock : Block :=
  { atoms := [0, 1],
    attrs := [(0, [("resid", .int 1), ("resname", .str "R1")]),
              (1, [("resid", .int 2), ("resname", .str "R2")])],
    edges := [(0, 1)] }

/-- A four-residue linear meta molecule 0-1-2-3 (node 2 is the one to be
expanded by `mixBlock`). -/
def mixMeta : MetaMolecule :=
  { nodes := [(0, [("resname", .str "X")]), (1, [("resname", .str "X")]),
              (2, [("resname", .str "MIX")]), (3, [("resname", .str "X")])],
    edges := [(0, 1), (1, 2), (2, 3)],
    force_field := ⟨[]⟩ }

/-- Two one-node molecules with placed positions, for the rescale example. -/
def twoPlaced : List BMol := [[some (1, 0, 0)], [some (0, 1, 0)]]

/-- The flat-table index map for `twoPlaced`. -/
def twoPlacedGndx : List ((Nat × Nat) × Nat) := [((0, 0), 0), ((1, 0), 1)]

/-- The flat position table for `twoPlaced`. -/
def twoPlacedPos : List Vec3 := [(1, 0, 0), (0, 1, 0)]

/-- The per-position constraint that `get_subgraphs` imposes on a candidate
tuple entry: a fixed order pins the entry to `edge[0] + order`, a wildcard
lets it range over the neighborhood of `edge[0]`. -/
def orderPred (meta : MetaMolecule) (u : Int) (deg : Nat) (o : LOrder) (x : Int) : Prop :=
  match o with
  | .fixed k => x = u + k
  | .wild => x ∈ neighborhood meta u deg

/-- The same constraint with the wildcard case spelled out through the
shortest-path distance. -/
def orderPredDist (meta : MetaMolecule) (u : Int) (deg : Nat) (o : LOrder) (x : Int) : Prop :=
  match o with
  | .fixed k => x = u + k
  | .wild => x ∈ meta.nodeIds ∧ ∃ l, dist meta u x = some l ∧ 0 < l ∧ l ≤ deg

theorem aor_of_not_mem (l : List Interaction) (i : Interaction)
    (h : keyOf i ∉ kset l) : aor l i = l ++ [i] := by
  induction l with
  | nil => rfl
  | cons j rest ih =>
      simp only [kset, List.map_cons, List.mem_cons, not_or] at h
      have hk : ¬ keyOf j = keyOf i := fun hh => h.1 (hh.symm)
      simp only [aor, if_neg hk, List.cons_append]
      rw [ih h.2]

theorem kset_aor_of_mem (l : List Interaction) (i : Interaction)
    (h : keyOf i ∈ kset l) : kset (aor l i) = kset l := by
  induction l with
  | nil => simp [kset] at h
  | cons j rest ih =>
      by_cases hk : keyOf j = keyOf i
      · simp [aor, if_pos hk, kset, hk]
      · have h' : keyOf i ∈ kset rest := by
          rcases (by simpa [kset] using h : keyOf i = keyOf j ∨ keyOf i ∈ kset rest) with h1 | h1
          · exact absurd h1.symm hk
          · exact h1
        simp only [aor, if_neg hk, kset, List.map_cons]
        rw [show (aor rest i).map keyOf = kset (aor rest i) from rfl, ih h']
        rfl

theorem mem_kset_aor (l : List Interaction) (i : Interaction)
    (k : List Int × AttrVal) (h : k ∈ kset l) : k ∈ kset (aor l i) := by
  by_cases hm : keyOf i ∈ kset l
  · rw [kset_aor_of_mem l i hm]; exact h
  · rw [aor_of_not_mem l i hm]
    simp only [kset, List.map_append, List.mem_append]
    exact Or.inl h

theorem self_mem_kset_aor (l : List Interaction) (i : Interaction) :
    keyOf i ∈ kset (aor l i) := by
  by_cases hm : keyOf i ∈ kset l
  · rw [kset_aor_of_mem l i hm]; exact hm
  · rw [aor_of_not_mem l i hm]
    simp [kset]

theorem aor_append_of_mem (l m : List Interaction) (i : Interaction)
    (h : keyOf i ∈ kset l) : aor (l ++ m) i = aor l i ++ m := by
  induction l with
  | nil => simp [kset] at h
  | cons j rest ih =>
      by_cases hk : keyOf j = keyOf i
      · simp [aor, if_pos hk]
      · have h' : keyOf i ∈ kset rest := by
          rcases (by simpa [kset] using h : keyOf i = keyOf j ∨ keyOf i ∈ kset rest) with h1 | h1
          · exact absurd h1.symm hk
          · exact h1
        simp only [List.cons_append, List.append_eq, aor, if_neg hk]
        rw [ih h']

theorem aor_stable (A B : List Interaction) (i : Interaction)
    (h : keyOf i ∉ kset A) : aor (A ++ i :: B) i = A ++ i :: B := by
  induction A with
  | nil => simp [aor]
  | cons a A ih =>
      simp only [kset, List.map_cons, List.mem_cons, not_or] at h
      have hk : ¬ keyOf a = keyOf i := fun hh => h.1 (hh.symm)
      simp only [List.cons_append, List.append_eq, aor, if_neg hk]
      rw [ih h.2]

theorem aor_replace (A B : List Interaction) (y i : Interaction)
    (hy : keyOf y = keyOf i) (h : keyOf i ∉ kset A) :
    aor (A ++ y :: B) i = A ++ i :: B := by
  induction A with
  | nil => simp [aor, if_pos hy]
  | cons a A ih =>
      simp only [kset, List.map_cons, List.mem_cons, not_or] at h
      have hk : ¬ keyOf a = keyOf i := fun hh => h.1 (hh.symm)
      simp only [List.cons_append, List.append_eq, aor, if_neg hk]
      rw [ih h.2]

theorem aor_skip (A B : List Interaction) (z j : Interaction)
    (hA : keyOf j ∉ kset A) (hz : keyOf z ≠ keyOf j) :
    aor (A ++ z :: B) j = A ++ z :: aor B j := by
  induction A with
  | nil => simp [aor, if_neg hz]
  | cons a A ih =>
      simp only [kset, List.map_cons, List.mem_cons, not_or] at hA
      have hk : ¬ keyOf a = keyOf j := fun hh => hA.1 (hh.symm)
      simp only [List.cons_append, List.append_eq, aor, if_neg hk]
      rw [ih hA.2]

theorem kset_mem_decomp (l : List Interaction) (i : Interaction)
    (h : keyOf i ∈ kset l) :
    ∃ A y B, l = A ++ y :: B ∧ keyOf y = keyOf i ∧ keyOf i ∉ kset A := by
  induction l with
  | nil => simp [kset] at h
  | cons j rest ih =>
      by_cases hk : keyOf j = keyOf i
      · exact ⟨[], j, rest, rfl, hk, by simp [kset]⟩
      · have h' : keyOf i ∈ kset rest := by
          rcases (by simpa [kset] using h : keyOf i = keyOf j ∨ keyOf i ∈ kset rest) with h1 | h1
          · exact absurd h1.symm hk
          · exact h1
        obtain ⟨A, y, B, hl, hy, hA⟩ := ih h'
        refine ⟨j :: A, y, B, by rw [hl]; rfl, hy, ?_⟩
        simp only [kset, List.map_cons, List.mem_cons, not_or]
        exact ⟨fun hh => hk hh.symm, hA⟩

theorem aor_aor_same (l : List Interaction) (i : Interaction) :
    aor (aor l i) i = aor l i := by
  induction l with
  | nil => simp [aor]
  | cons j rest ih =>
      by_cases hk : keyOf j = keyOf i
      · simp [aor, if_pos hk]
      · simp only [aor, if_neg hk]
        rw [ih]

theorem aorAll_cons (l : List Interaction) (j : Interaction) (is_ : List Interaction) :
    aorAll l (j :: is_) = aorAll (aor l j) is_ := rfl

theorem aorAll_concat (l : List Interaction) (is_ : List Interaction) (i : Interaction) :
    aorAll l (is_ ++ [i]) = aor (aorAll l is_) i := by
  simp [aorAll, List.foldl_append]

theorem mem_kset_aorAll (is_ : List Interaction) (l : List Interaction)
    (k : List Int × AttrVal) (h : k ∈ kset l) : k ∈ kset (aorAll l is_) := by
  induction is_ generalizing l with
  | nil => exact h
  | cons j rest ih => exact ih (aor l j) (mem_kset_aor l j k h)

theorem ops_mem_kset_aorAll (is_ : List Interaction) (l : List Interaction) :
    ∀ j ∈ is_, keyOf j ∈ kset (aorAll l is_) := by
  induction is_ generalizing l with
  | nil => intro j hj; simp at hj
  | cons j0 rest ih =>
      intro j hj
      rcases List.mem_cons.mp hj with h1 | h1
      · subst h1
        exact mem_kset_aorAll rest (aor l j) (keyOf j) (self_mem_kset_aor l j)
      · exact ih (aor l j0) j h1

theorem aorAll_append_list (is_ : List Interaction) (l m : List Interaction)
    (h : ∀ j ∈ is_, keyOf j ∈ kset l) : aorAll (l ++ m) is_ = aorAll l is_ ++ m := by
  induction is_ generalizing l with
  | nil => rfl
  | cons j rest ih =>
      rw [aorAll_cons, aorAll_cons, aor_append_of_mem l m j (h j (by simp))]
      exact ih (aor l j) (fun j' hj' => mem_kset_aor l j (keyOf j') (h j' (by simp [hj'])))

theorem kset_aorAll_of_all_mem (is_ : List Interaction) (l : List Interaction)
    (h : ∀ j ∈ is_, keyOf j ∈ kset l) : kset (aorAll l is_) = kset l := by
  induction is_ generalizing l with
  | nil => rfl
  | cons j rest ih =>
      rw [aorAll_cons,
          ih (aor l j) (fun j' hj' => mem_kset_aor l j (keyOf j') (h j' (by simp [hj']))),
          kset_aor_of_mem l j (h j (by simp))]

theorem aor_comm (l : List Interaction) (a j : Interaction)
    (ha : keyOf a ∈ kset l) (hne : keyOf j ≠ keyOf a) :
    aor (aor l a) j = aor (aor l j) a := by
  induction l with
  | nil => simp [kset] at ha
  | cons x rest ih =>
      by_cases hxa : keyOf x = keyOf a
      · have hxj : ¬ keyOf x = keyOf j := fun hh => hne (hh ▸ hxa)
        have haj : ¬ keyOf a = keyOf j := fun hh => hne hh.symm
        simp only [aor, if_pos hxa, if_neg haj, if_neg hxj, if_pos hxa]
      · by_cases hxj : keyOf x = keyOf j
        · have hja : ¬ keyOf j = keyOf a := hne
          simp only [aor, if_neg hxa, if_pos hxj, if_neg hja]
        · have ha' : keyOf a ∈ kset rest := by
            rcases (by simpa [kset] using ha : keyOf a = keyOf x ∨ keyOf a ∈ kset rest)
              with h1 | h1
            · exact absurd h1.symm hxa
            · exact h1
          simp only [aor, if_neg hxa, if_neg hxj]
          rw [ih ha']

theorem aorAll_comm (is_ : List Interaction) (l : List Interaction) (a : Interaction)
    (ha : keyOf a ∈ kset l) (h : ∀ j ∈ is_, keyOf j ≠ keyOf a) :
    aorAll (aor l a) is_ = aor (aorAll l is_) a := by
  induction is_ generalizing l with
  | nil => rfl
  | cons j rest ih =>
      rw [aorAll_cons, aor_comm l a j ha (h j (by simp)), ← aorAll_cons, aorAll_cons]
      exact ih (aor l j) (mem_kset_aor l j (keyOf a) ha) (fun j' hj' => h j' (by simp [hj']))

theorem aorAll_overwrite (is_ : List Interaction) (A B : List Interaction)
    (y i : Interaction) (hy : keyOf y = keyOf i) (hA : keyOf i ∉ kset A)
    (hex : ∃ j ∈ is_, keyOf j = keyOf i) :
    aorAll (A ++ i :: B) is_ = aorAll (A ++ y :: B) is_ := by
  induction is_ generalizing A B with
  | nil => obtain ⟨j, hj, _⟩ := hex; simp at hj
  | cons j rest ih =>
      by_cases hji : keyOf j = keyOf i
      · have hAj : keyOf j ∉ kset A := by rw [hji]; exact hA
        rw [aorAll_cons, aorAll_cons, aor_replace A B i j hji.symm hAj,
            aor_replace A B y j (hy.trans hji.symm) hAj]
      · have hex' : ∃ j' ∈ rest, keyOf j' = keyOf i := by
          obtain ⟨j', hj', hk'⟩ := hex
          rcases List.mem_cons.mp hj' with h1 | h1
          · exact absurd (h1 ▸ hk') hji
          · exact ⟨j', h1, hk'⟩
        by_cases hjA : keyOf j ∈ kset A
        · rw [aorAll_cons, aorAll_cons, aor_append_of_mem A (i :: B) j hjA,
              aor_append_of_mem A (y :: B) j hjA]
          exact ih (aor A j) B (by rw [kset_aor_of_mem A j hjA]; exact hA) hex'
        · have hij : keyOf i ≠ keyOf j := fun hh => hji hh.symm
          have hyj : keyOf y ≠ keyOf j := fun hh => hji (hh.symm.trans hy)
          rw [aorAll_cons, aorAll_cons, aor_skip A B i j hjA hij, aor_skip A B y j hjA hyj]
          exact ih A (aor B j) hA hex'

theorem aorAll_idem (is_ : List Interaction) :
    ∀ l, aorAll (aorAll l is_) is_ = aorAll l is_ := by
  induction is_ using List.reverseRecOn with
  | nil => intro l; rfl
  | append_singleton rest i ih =>
      intro l
      rw [aorAll_concat, aorAll_concat]
      have hid : aorAll (aorAll l rest) rest = aorAll l rest := ih l
      by_cases hmem : keyOf i ∈ kset (aorAll l rest)
      · by_cases hex : ∃ j ∈ rest, keyOf j = keyOf i
        · obtain ⟨A, y, B, hdec, hy, hA⟩ := kset_mem_decomp (aorAll l rest) i hmem
          rw [hdec, aor_replace A B y i hy hA, aorAll_overwrite rest A B y i hy hA hex,
              ← hdec, hid, hdec, aor_replace A B y i hy hA]
        · push_neg at hex
          rw [aorAll_comm rest (aorAll l rest) i hmem hex, hid, aor_aor_same]
      · have hall : ∀ j ∈ rest, keyOf j ∈ kset (aorAll l rest) :=
          ops_mem_kset_aorAll rest l
        rw [aor_of_not_mem (aorAll l rest) i hmem,
            aorAll_append_list rest (aorAll l rest) [i] hall, hid]
        exact aor_stable (aorAll l rest) [] i hmem

theorem aor_aorAll_key (js : List Interaction) (b : List Interaction) (i : Interaction)
    (h : ∀ j ∈ js, keyOf j ∈ kset b) :
    aor (aorAll (aor b i) js) i = aor (aorAll b js) i := by
  by_cases hb : keyOf i ∈ kset b
  · by_cases hex : ∃ j ∈ js, keyOf j = keyOf i
    · obtain ⟨A, y, B, hdec, hy, hA⟩ := kset_mem_decomp b i hb
      rw [hdec, aor_replace A B y i hy hA, aorAll_overwrite js A B y i hy hA hex]
    · push_neg at hex
      rw [aorAll_comm js b i hb hex, aor_aor_same]
  · have hnk : keyOf i ∉ kset (aorAll b js) := by
      rw [kset_aorAll_of_all_mem js b h]; exact hb
    rw [aor_of_not_mem b i hb, aorAll_append_list js b [i] h,
        aor_stable (aorAll b js) [] i hnk, aor_of_not_mem (aorAll b js) i hnk]

theorem applyOps_cons (M : List (String × List Interaction)) (op : String × Interaction)
    (ops : List (String × Interaction)) :
    applyOps M (op :: ops) = applyOps (applyOp M op) ops := rfl

theorem applyOps_concat (M : List (String × List Interaction))
    (ops : List (String × Interaction)) (op : String × Interaction) :
    applyOps M (ops ++ [op]) = applyOp (applyOps M ops) op := by
  simp [applyOps, List.foldl_append]

theorem tset_applyOp_of_mem (M : List (String × List Interaction))
    (op : String × Interaction) (h : op.1 ∈ tset M) : tset (applyOp M op) = tset M := by
  induction M with
  | nil => simp [tset] at h
  | cons tb rest ih =>
      obtain ⟨t, b⟩ := tb
      by_cases ht : t = op.1
      · simp [applyOp, if_pos ht, tset]
      · have h' : op.1 ∈ tset rest := by
          rcases (by simpa [tset] using h : op.1 = t ∨ op.1 ∈ tset rest) with h1 | h1
          · exact absurd h1.symm ht
          · exact h1
        simp only [applyOp, if_neg ht, tset, List.map_cons]
        rw [show (applyOp rest op).map (·.1) = tset (applyOp rest op) from rfl, ih h']
        rfl

theorem applyOp_of_not_mem (M : List (String × List Interaction))
    (op : String × Interaction) (h : op.1 ∉ tset M) :
    applyOp M op = M ++ [(op.1, [op.2])] := by
  induction M with
  | nil => rfl
  | cons tb rest ih =>
      obtain ⟨t, b⟩ := tb
      simp only [tset, List.map_cons, List.mem_cons, not_or] at h
      have ht : ¬ t = op.1 := fun hh => h.1 (hh.symm)
      simp only [applyOp, if_neg ht, List.cons_append, List.append_eq]
      rw [ih h.2]

theorem mem_tset_applyOp (M : List (String × List Interaction))
    (op : String × Interaction) (s : String) (h : s ∈ tset M) :
    s ∈ tset (applyOp M op) := by
  by_cases hm : op.1 ∈ tset M
  · rw [tset_applyOp_of_mem M op hm]; exact h
  · rw [applyOp_of_not_mem M op hm]
    simp only [tset, List.map_append, List.mem_append]
    exact Or.inl h

theorem self_mem_tset_applyOp (M : List (String × List Interaction))
    (op : String × Interaction) : op.1 ∈ tset (applyOp M op) := by
  by_cases hm : op.1 ∈ tset M
  · rw [tset_applyOp_of_mem M op hm]; exact hm
  · rw [applyOp_of_not_mem M op hm]
    simp [tset]

theorem applyOp_append_of_mem (M P : List (String × List Interaction))
    (op : String × Interaction) (h : op.1 ∈ tset M) :
    applyOp (M ++ P) op = applyOp M op ++ P := by
  induction M with
  | nil => simp [tset] at h
  | cons tb rest ih =>
      obtain ⟨t, b⟩ := tb
      by_cases ht : t = op.1
      · simp [applyOp, if_pos ht]
      · have h' : op.1 ∈ tset rest := by
          rcases (by simpa [tset] using h : op.1 = t ∨ op.1 ∈ tset rest) with h1 | h1
          · exact absurd h1.symm ht
          · exact h1
        simp only [List.cons_append, List.append_eq, applyOp, if_neg ht]
        rw [ih h']

theorem applyOp_at (P Q : List (String × List Interaction)) (b : List Interaction)
    (t : String) (i : Interaction) (hP : t ∉ tset P) :
    applyOp (P ++ (t, b) :: Q) (t, i) = P ++ (t, aor b i) :: Q := by
  induction P with
  | nil => simp [applyOp]
  | cons tb rest ih =>
      obtain ⟨u, c⟩ := tb
      simp only [tset, List.map_cons, List.mem_cons, not_or] at hP
      have hu : ¬ u = t := fun hh => hP.1 (hh.symm)
      simp only [List.cons_append, List.append_eq, applyOp, if_neg hu]
      rw [ih hP.2]

theorem applyOp_skip (P Q : List (String × List Interaction)) (b : List Interaction)
    (t s : String) (i : Interaction) (hP : s ∉ tset P) (hts : t ≠ s) :
    applyOp (P ++ (t, b) :: Q) (s, i) = P ++ (t, b) :: applyOp Q (s, i) := by
  induction P with
  | nil => simp [applyOp, if_neg hts]
  | cons tb rest ih =>
      obtain ⟨u, c⟩ := tb
      simp only [tset, List.map_cons, List.mem_cons, not_or] at hP
      have hu : ¬ u = s := fun hh => hP.1 (hh.symm)
      simp only [List.cons_append, List.append_eq, applyOp, if_neg hu]
      rw [ih hP.2]

theorem mem_tset_applyOps (ops : List (String × Interaction))
    (M : List (String × List Interaction)) (s : String) (h : s ∈ tset M) :
    s ∈ tset (applyOps M ops) := by
  induction ops generalizing M with
  | nil => exact h
  | cons op rest ih => exact ih (applyOp M op) (mem_tset_applyOp M op s h)

theorem ops_mem_tset_applyOps (ops : List (String × Interaction))
    (M : List (String × List Interaction)) :
    ∀ op ∈ ops, op.1 ∈ tset (applyOps M ops) := by
  induction ops generalizing M with
  | nil => intro op hop; simp at hop
  | cons op0 rest ih =>
      intro op hop
      rcases List.mem_cons.mp hop with h1 | h1
      · subst h1
        exact mem_tset_applyOps rest (applyOp M op) op.1 (self_mem_tset_applyOp M op)
      · exact ih (applyOp M op0) op h1

theorem applyOps_append_list (ops : List (String × Interaction))
    (M P : List (String × List Interaction)) (h : ∀ op ∈ ops, op.1 ∈ tset M) :
    applyOps (M ++ P) ops = applyOps M ops ++ P := by
  induction ops generalizing M with
  | nil => rfl
  | cons op rest ih =>
      rw [applyOps_cons, applyOps_cons, applyOp_append_of_mem M P op (h op (by simp))]
      exact ih (applyOp M op)
        (fun op' hop' => mem_tset_applyOp M op op'.1 (h op' (by simp [hop'])))

theorem itemsFor_cons_self (t : String) (j : Interaction) (ops : List (String × Interaction)) :
    itemsFor t ((t, j) :: ops) = j :: itemsFor t ops := by
  simp [itemsFor]

theorem itemsFor_cons_ne (t s : String) (j : Interaction) (ops : List (String × Interaction))
    (h : s ≠ t) : itemsFor t ((s, j) :: ops) = itemsFor t ops := by
  simp [itemsFor, h]

theorem applyOps_sep (ops : List (String × Interaction)) :
    ∀ (P Q : List (String × List Interaction)) (b b' : List Interaction) (t : String),
    t ∉ tset P →
    ∃ P' Q', t ∉ tset P' ∧
      applyOps (P ++ (t, b) :: Q) ops = P' ++ (t, aorAll b (itemsFor t ops)) :: Q' ∧
      applyOps (P ++ (t, b') :: Q) ops = P' ++ (t, aorAll b' (itemsFor t ops)) :: Q' := by
  induction ops with
  | nil =>
      intro P Q b b' t hP
      exact ⟨P, Q, hP, rfl, rfl⟩
  | cons op rest ih =>
      obtain ⟨s, j⟩ := op
      intro P Q b b' t hP
      by_cases hst : s = t
      · subst hst
        rw [applyOps_cons, applyOps_cons, applyOp_at P Q b s j hP,
            applyOp_at P Q b' s j hP, itemsFor_cons_self, aorAll_cons, aorAll_cons]
        exact ih P Q (aor b j) (aor b' j) s hP
      · rw [applyOps_cons, applyOps_cons, itemsFor_cons_ne t s j rest hst]
        by_cases hsP : s ∈ tset P
        · rw [applyOp_append_of_mem P ((t, b) :: Q) (s, j) hsP,
              applyOp_append_of_mem P ((t, b') :: Q) (s, j) hsP]
          have hP2 : t ∉ tset (applyOp P (s, j)) := by
            rw [tset_applyOp_of_mem P (s, j) hsP]; exact hP
          exact ih (applyOp P (s, j)) Q b b' t hP2
        · have hts : t ≠ s := fun hh => hst hh.symm
          rw [applyOp_skip P Q b t s j hsP hts, applyOp_skip P Q b' t s j hsP hts]
          exact ih P (applyOp Q (s, j)) b b' t hP

theorem bucketD_cons (u : String) (c : List Interaction)
    (rest : List (String × List Interaction)) (t : String) :
    bucketD ((u, c) :: rest) t = if u = t then c else bucketD rest t := by
  by_cases h : u = t
  · simp [bucketD, List.find?_cons_of_pos, h]
  · simp [bucketD, List.find?_cons_of_neg, h]

theorem bucketD_applyOp (M : List (String × List Interaction)) (s : String)
    (i : Interaction) (t : String) :
    bucketD (applyOp M (s, i)) t = if s = t then aor (bucketD M t) i else bucketD M t := by
  induction M with
  | nil =>
      by_cases hst : s = t
      · subst hst; simp [applyOp, bucketD_cons, bucketD, aor]
      · simp [applyOp, bucketD_cons, hst, bucketD]
  | cons tb rest ih =>
      obtain ⟨u, c⟩ := tb
      by_cases hus : u = s
      · simp only [applyOp, if_pos hus, bucketD_cons]
        by_cases hut : u = t
        · have hst : s = t := hus.symm.trans hut
          simp [hut, hst]
        · have hst : ¬ s = t := fun hh => hut (hus.trans hh)
          simp [hut, hst]
      · simp only [applyOp, if_neg hus]
        by_cases hut : u = t
        · have hst : ¬ s = t := fun hh => hus (hut.trans hh.symm)
          simp [hut, hst, bucketD_cons]
        · simp [hut, ih, bucketD_cons]

theorem bucketD_applyOps (ops : List (String × Interaction))
    (M : List (String × List Interaction)) (t : String) :
    bucketD (applyOps M ops) t = aorAll (bucketD M t) (itemsFor t ops) := by
  induction ops generalizing M with
  | nil => rfl
  | cons op rest ih =>
      obtain ⟨s, j⟩ := op
      rw [applyOps_cons, ih (applyOp M (s, j))]
      by_cases hst : s = t
      · subst hst
        rw [itemsFor_cons_self, aorAll_cons, bucketD_applyOp M s j s, if_pos rfl]
      · rw [itemsFor_cons_ne t s j rest hst, bucketD_applyOp M s j t, if_neg hst]

theorem tset_mem_decomp (M : List (String × List Interaction)) (t : String)
    (h : t ∈ tset M) :
    ∃ P b Q, M = P ++ (t, b) :: Q ∧ t ∉ tset P ∧ bucketD M t = b := by
  induction M with
  | nil => simp [tset] at h
  | cons tb rest ih =>
      obtain ⟨u, c⟩ := tb
      by_cases hut : u = t
      · subst hut
        exact ⟨[], c, rest, rfl, by simp [tset], by simp [bucketD_cons]⟩
      · have h' : t ∈ tset rest := by
          rcases (by simpa [tset] using h : t = u ∨ t ∈ tset rest) with h1 | h1
          · exact absurd h1.symm hut
          · exact h1
        obtain ⟨P, b, Q, hM, hP, hb⟩ := ih h'
        refine ⟨(u, c) :: P, b, Q, by rw [hM]; rfl, ?_, ?_⟩
        · simp only [tset, List.map_cons, List.mem_cons, not_or]
          exact ⟨fun hh => hut hh.symm, hP⟩
        · rw [bucketD_cons, if_neg hut]; exact hb

theorem first_occ_uniq (t : String) :
    ∀ (P P' : List (String × List Interaction)) (b c : List Interaction)
      (Q Q' : List (String × List Interaction)),
    t ∉ tset P → t ∉ tset P' → P ++ (t, b) :: Q = P' ++ (t, c) :: Q' →
    P = P' ∧ b = c ∧ Q = Q' := by
  intro P
  induction P with
  | nil =>
      intro P' b c Q Q' _ hP' heq
      cases P' with
      | nil =>
          simp only [List.nil_append] at heq
          obtain ⟨h1, h2⟩ := List.cons.inj heq
          exact ⟨rfl, (Prod.mk.injEq _ _ _ _).mp h1 |>.2, h2⟩
      | cons x P' =>
          simp only [List.nil_append, List.cons_append] at heq
          obtain ⟨h1, _⟩ := List.cons.inj heq
          exfalso
          apply hP'
          simp [tset, ← h1]
  | cons y P ih =>
      intro P' b c Q Q' hP hP' heq
      cases P' with
      | nil =>
          simp only [List.cons_append, List.nil_append] at heq
          obtain ⟨h1, _⟩ := List.cons.inj heq
          exfalso
          apply hP
          simp [tset, h1]
      | cons x P' =>
          simp only [List.cons_append] at heq
          obtain ⟨h1, h2⟩ := List.cons.inj heq
          have hPt : t ∉ tset P := fun hh => hP (List.mem_cons_of_mem _ hh)
          have hPt' : t ∉ tset P' := fun hh => hP' (List.mem_cons_of_mem _ hh)
          obtain ⟨hp, hb, hq⟩ := ih P' b c Q Q' hPt hPt' h2
          exact ⟨by rw [h1, hp], hb, hq⟩

theorem applyOps_idem (ops : List (String × Interaction)) :
    ∀ M, applyOps (applyOps M ops) ops = applyOps M ops := by
  induction ops using List.reverseRecOn with
  | nil => intro M; rfl
  | append_singleton ops op ih =>
      intro M
      obtain ⟨t, i⟩ := op
      rw [applyOps_concat, applyOps_concat]
      have hid : applyOps (applyOps M ops) ops = applyOps M ops := ih M
      by_cases hT : t ∈ tset (applyOps M ops)
      · have hbd := bucketD_applyOps ops M t
        obtain ⟨P, b, Q, hY, hP, hb⟩ := tset_mem_decomp (applyOps M ops) t hT
        rw [hY, applyOp_at P Q b t i hP]
        obtain ⟨P', Q', hP', h1, h2⟩ := applyOps_sep ops P Q (aor b i) b t hP
        rw [h1]
        have hYY : applyOps (P ++ (t, b) :: Q) ops = P ++ (t, b) :: Q := by
          rw [← hY, hid, hY]
        rw [h2] at hYY
        obtain ⟨hPP, hbb, hQQ⟩ :=
          first_occ_uniq t P' P (aorAll b (itemsFor t ops)) b Q' Q hP' hP hYY
        subst hPP
        subst hQQ
        rw [applyOp_at P' Q' _ t i hP]
        have hkeys : ∀ j ∈ itemsFor t ops, keyOf j ∈ kset b := by
          intro j hj
          have hbe : b = aorAll (bucketD M t) (itemsFor t ops) := by rw [← hb, hbd]
          rw [hbe]
          exact ops_mem_kset_aorAll _ _ j hj
        rw [aor_aorAll_key (itemsFor t ops) b i hkeys, hbb]
      · have hops : ∀ op' ∈ ops, op'.1 ∈ tset (applyOps M ops) :=
          ops_mem_tset_applyOps ops M
        rw [applyOp_of_not_mem (applyOps M ops) (t, i) hT,
            applyOps_append_list ops (applyOps M ops) [(t, [i])] hops, hid,
            show applyOps M ops ++ [(t, [i])] = applyOps M ops ++ (t, [i]) :: [] from rfl,
            applyOp_at (applyOps M ops) [] [i] t i hT]
        simp [aor]

theorem addEdge_of_edgeIn (es : List (Nat × Nat)) (e : Nat × Nat)
    (h : edgeIn es e = true) : addEdge es e = es := by
  simp [addEdge, h]

theorem edgeIn_addEdge_self (es : List (Nat × Nat)) (e : Nat × Nat) :
    edgeIn (addEdge es e) e = true := by
  by_cases h : edgeIn es e
  · simp [addEdge, h]
  · simp only [addEdge, h, if_false]
    simp [edgeIn, List.any_append]

theorem edgeIn_addEdge_mono (es : List (Nat × Nat)) (e d : Nat × Nat)
    (h : edgeIn es d = true) : edgeIn (addEdge es e) d = true := by
  by_cases he : edgeIn es e
  · simp [addEdge, he, h]
  · simp only [addEdge, he, if_false]
    simp only [edgeIn, List.any_append] at h ⊢
    simp [h]

theorem edgeIn_addEdges_mono (news : List (Nat × Nat)) (es : List (Nat × Nat))
    (d : Nat × Nat) (h : edgeIn es d = true) : edgeIn (addEdges es news) d = true := by
  induction news generalizing es with
  | nil => exact h
  | cons e rest ih => exact ih (addEdge es e) (edgeIn_addEdge_mono es e d h)

theorem mem_edgeIn_addEdges (news : List (Nat × Nat)) (es : List (Nat × Nat)) :
    ∀ e ∈ news, edgeIn (addEdges es news) e = true := by
  induction news generalizing es with
  | nil => intro e he; simp at he
  | cons e0 rest ih =>
      intro e he
      rcases List.mem_cons.mp he with h1 | h1
      · subst h1
        exact edgeIn_addEdges_mono rest (addEdge es e) e (edgeIn_addEdge_self es e)
      · exact ih (addEdge es e0) e h1

theorem addEdges_of_all (news : List (Nat × Nat)) (es : List (Nat × Nat))
    (h : ∀ e ∈ news, edgeIn es e = true) : addEdges es news = es := by
  induction news with
  | nil => rfl
  | cons e rest ih =>
      show addEdges (addEdge es e) rest = es
      rw [addEdge_of_edgeIn es e (h e (by simp))]
      exact ih (fun e' he' => h e' (by simp [he']))

theorem addEdges_idem (es news : List (Nat × Nat)) :
    addEdges (addEdges es news) news = addEdges es news :=
  addEdges_of_all news (addEdges es news) (mem_edgeIn_addEdges news es)

theorem commitAll_cons (mol : Molecule) (c : (String × Interaction) × List (Nat × Nat))
    (cs : List ((String × Interaction) × List (Nat × Nat))) :
    commitAll mol (c :: cs) =
      commitAll { mol with interactions := applyOp mol.interactions c.1,
                           edges := addEdges mol.edges c.2 } cs := by
  simp [commitAll, applyOps, addEdges, List.foldl_append]

theorem commitAll_append (mol : Molecule)
    (cs cs' : List ((String × Interaction) × List (Nat × Nat))) :
    commitAll mol (cs ++ cs') = commitAll (commitAll mol cs) cs' := by
  simp [commitAll, applyOps, addEdges, List.foldl_append]

theorem applyBucket_cons (mapping : List (Int × Nat)) (t : String) (mol : Molecule)
    (i : Interaction) (rest : List Interaction) :
    applyBucket mapping t mol (i :: rest) =
      (applyOne mol mapping t i) >>= (fun m => applyBucket mapping t m rest) := rfl

theorem compileBucket_cons (nodes : List NodeAttrs) (mapping : List (Int × Nat))
    (t : String) (i : Interaction) (rest : List Interaction) :
    compileBucket nodes mapping t (i :: rest) = (do
      let c ← compileOne nodes mapping t i
      let cs ← compileBucket nodes mapping t rest
      pure (c :: cs)) := rfl

theorem applyBucket_eq (mapping : List (Int × Nat)) (t : String)
    (is_ : List Interaction) :
    ∀ mol : Molecule, applyBucket mapping t mol is_ =
      (compileBucket mol.nodes mapping t is_).map (fun cs => commitAll mol cs) := by
  induction is_ with
  | nil => intro mol; rfl
  | cons i rest ih =>
      intro mol
      rw [applyBucket_cons, compileBucket_cons]
      cases hc : compileOne mol.nodes mapping t i with
      | error e =>
          have hl : applyOne mol mapping t i = .error e := by
            simp [applyOne, hc, Except.map]
          rw [hl]
          rfl
      | ok c =>
          have hl : applyOne mol mapping t i =
              .ok { mol with interactions := applyOp mol.interactions c.1,
                             edges := addEdges mol.edges c.2 } := by
            simp [applyOne, hc, Except.map]
          rw [hl]
          show applyBucket mapping t
            { mol with interactions := applyOp mol.interactions c.1,
                       edges := addEdges mol.edges c.2 } rest = _
          rw [ih _]
          show (compileBucket mol.nodes mapping t rest).map _ = _
          cases hcs : compileBucket mol.nodes mapping t rest with
          | error e => rfl
          | ok cs => exact congrArg Except.ok (commitAll_cons mol c cs).symm

theorem applyInteractions_cons (mapping : List (Int × Nat)) (mol : Molecule)
    (t : String) (is_ : List Interaction) (rest : List (String × List Interaction)) :
    applyInteractions mapping mol ((t, is_) :: rest) =
      (applyBucket mapping t mol is_) >>= (fun m => applyInteractions mapping m rest) := rfl

theorem compileAll_cons (nodes : List NodeAttrs) (mapping : List (Int × Nat))
    (t : String) (is_ : List Interaction) (rest : List (String × List Interaction)) :
    compileAll nodes mapping ((t, is_) :: rest) = (do
      let c ← compileBucket nodes mapping t is_
      let r ← compileAll nodes mapping rest
      pure (c ++ r)) := rfl

theorem applyInteractions_eq (mapping : List (Int × Nat))
    (L : List (String × List Interaction)) :
    ∀ mol : Molecule, applyInteractions mapping mol L =
      (compileAll mol.nodes mapping L).map (fun cs => commitAll mol cs) := by
  induction L with
  | nil => intro mol; rfl
  | cons tb rest ih =>
      obtain ⟨t, is_⟩ := tb
      intro mol
      rw [applyInteractions_cons, applyBucket_eq mapping t is_ mol, compileAll_cons]
      cases hc : compileBucket mol.nodes mapping t is_ with
      | error e => rfl
      | ok cs =>
          show applyInteractions mapping (commitAll mol cs) rest = _
          rw [ih (commitAll mol cs)]
          show (compileAll mol.nodes mapping rest).map _ = _
          cases hcs : compileAll mol.nodes mapping rest with
          | error e => rfl
          | ok cs' => exact congrArg Except.ok (commitAll_append mol cs cs').symm

/-- Claim C8: applying the same link with the same residue-id assignment to
the same molecule a second time is a no-op: whenever
`apply_link_between_residues` succeeds, calling it again with identical
arguments returns the same molecule — the same interaction lists (the second
pass of `add_or_replace_interaction` replaces each already-present
interaction with itself, duplicating nothing) and the same edge set
(`add_edges_from` skips every edge that is already present). -/
theorem apply_link_between_residues_idempotent (mol mol' : Molecule) (link : Link)
    (resids : List Int)
    (h : apply_link_between_residues mol link resids = Except.ok mol') :
    apply_link_between_residues mol' link resids = Except.ok mol' := by
  unfold apply_link_between_residues at h ⊢
  cases hr : resolveNodes mol.nodes (assignedNodes link resids) with
  | error e =>
      rw [hr] at h
      exact Except.noConfusion h
  | ok mapping =>
      rw [hr] at h
      have h2 : applyInteractions mapping mol link.interactions = .ok mol' := h
      rw [applyInteractions_eq mapping link.interactions mol] at h2
      cases hc : compileAll mol.nodes mapping link.interactions with
      | error e =>
          rw [hc] at h2
          exact Except.noConfusion h2
      | ok cs =>
          rw [hc] at h2
          have h3 : Except.ok (commitAll mol cs) = Except.ok mol' := h2
          have hmol' : commitAll mol cs = mol' := by injection h3
          have hnodes : mol'.nodes = mol.nodes := by rw [← hmol']; rfl
          rw [hnodes, hr]
          show applyInteractions mapping mol' link.interactions = .ok mol'
          rw [applyInteractions_eq mapping link.interactions mol', hnodes, hc]
          show Except.ok (commitAll mol' cs) = Except.ok mol'
          rw [← hmol']
          have hcc : commitAll (commitAll mol cs) cs =
              { nodes := mol.nodes,
                edges := addEdges (addEdges mol.edges (cs.flatMap (·.2))) (cs.flatMap (·.2)),
                interactions :=
                  applyOps (applyOps mol.interactions (cs.map (·.1))) (cs.map (·.1)) } := rfl
          rw [hcc, applyOps_idem (cs.map (·.1)) mol.interactions, addEdges_idem]
          rfl

/-- Witness for C8: applying `okLink` to the already-linked `okMolRes` (the
result of a first successful application to `okMol`) returns `okMolRes`
unchanged. -/
theorem apply_link_between_residues_idempotent_witness :
    apply_link_between_residues okMolRes okLink [1, 2] = Except.ok okMolRes :=
  apply_link_between_residues_idempotent okMol okMolRes okLink [1, 2] (by rfl)

theorem matchFailError_eq_matchError (attrs : NodeAttrs)
    (h1 : (getAttr attrs "atomname").isSome) (h2 : (getAttr attrs "resid").isSome) :
    matchFailError attrs = .matchError := by
  obtain ⟨v, hv⟩ := Option.isSome_iff_exists.mp h1
  obtain ⟨w, hw⟩ := Option.isSome_iff_exists.mp h2
  simp [matchFailError, hv, hw]

theorem resolveNodes_cons (nodes : List NodeAttrs) (n : Int) (attrs : NodeAttrs)
    (rest : List (Int × NodeAttrs)) :
    resolveNodes nodes ((n, attrs) :: rest) =
      (match find_atoms nodes linkIgnore attrs with
       | [m] => (resolveNodes nodes rest).map (fun tl => (n, m) :: tl)
       | _ => .error (matchFailError attrs)) := rfl

theorem resolveNodes_ok_len (nodes : List NodeAttrs) (l : List (Int × NodeAttrs))
    (m : List (Int × Nat)) (h : resolveNodes nodes l = .ok m) :
    ∀ p ∈ l, (find_atoms nodes linkIgnore p.2).length = 1 := by
  induction l generalizing m with
  | nil => intro p hp; simp at hp
  | cons q rest ih =>
      obtain ⟨n, attrs⟩ := q
      intro p hp
      cases hf : find_atoms nodes linkIgnore attrs with
      | nil =>
          rw [resolveNodes_cons, hf] at h
          exact Except.noConfusion h
      | cons a tl =>
          cases tl with
          | nil =>
              rcases List.mem_cons.mp hp with h1 | h1
              · subst h1
                rw [hf]
                rfl
              · rw [resolveNodes_cons, hf] at h
                cases hrest : resolveNodes nodes rest with
                | error e =>
                    rw [hrest] at h
                    exact Except.noConfusion h
                | ok m' => exact ih m' hrest p h1
          | cons b tl2 =>
              rw [resolveNodes_cons, hf] at h
              exact Except.noConfusion h

theorem resolveNodes_err (nodes : List NodeAttrs) (l : List (Int × NodeAttrs))
    (h : ∃ p ∈ l, (find_atoms nodes linkIgnore p.2).length ≠ 1) :
    ∃ p ∈ l, (find_atoms nodes linkIgnore p.2).length ≠ 1 ∧
      resolveNodes nodes l = .error (matchFailError p.2) := by
  induction l with
  | nil => obtain ⟨p, hp, _⟩ := h; simp at hp
  | cons q rest ih =>
      obtain ⟨n, attrs⟩ := q
      by_cases hb : (find_atoms nodes linkIgnore attrs).length = 1
      · have hex : ∃ p ∈ rest, (find_atoms nodes linkIgnore p.2).length ≠ 1 := by
          obtain ⟨p, hp, hlen⟩ := h
          rcases List.mem_cons.mp hp with h1 | h1
          · rw [h1] at hlen
            exact absurd hb hlen
          · exact ⟨p, h1, hlen⟩
        obtain ⟨p, hp, hlen, herr⟩ := ih hex
        refine ⟨p, List.mem_cons_of_mem _ hp, hlen, ?_⟩
        obtain ⟨a, ha⟩ := List.length_eq_one.mp hb
        rw [resolveNodes_cons, ha]
        show (resolveNodes nodes rest).map _ = _
        rw [herr]
        rfl
      · refine ⟨(n, attrs), by simp, hb, ?_⟩
        rw [resolveNodes_cons]
        cases hf : find_atoms nodes linkIgnore attrs with
        | nil => rfl
        | cons a tl =>
            cases tl with
            | nil => rw [hf] at hb; simp at hb
            | cons b tl2 => rfl

/-- Claim C1: `apply_link_between_residues` only mutates the molecule when
every link pattern node resolves to exactly one matching atom.  If any
pattern node matches zero atoms or more than one atom, the call returns
`MatchError` and no molecule state is produced — the matching loop runs
before any mutation, so the atom graph (nodes, edges, interaction lists) is
unchanged, which the `Except`-valued embedding captures by returning the
error without a molecule.  Conversely, a successful call implies every
pattern node had exactly one match.  The well-formedness hypothesis states
that every pattern node carries an `atomname` attribute and receives a
`resid` (otherwise the CPython error path itself would raise `KeyError`
while formatting the message instead of `MatchError`). -/
theorem apply_link_match_exactness (mol : Molecule) (link : Link) (resids : List Int)
    (hwf : ∀ n ∈ link.nodes, (getAttr (effAttrs link resids n) "atomname").isSome ∧
        (getAttr (effAttrs link resids n) "resid").isSome) :
    ((∃ n ∈ link.nodes, (matchesFor mol link resids n).length ≠ 1) →
        apply_link_between_residues mol link resids = .error .matchError) ∧
    (∀ mol', apply_link_between_residues mol link resids = Except.ok mol' →
        ∀ n ∈ link.nodes, (matchesFor mol link resids n).length = 1) := by
  constructor
  · intro hex0
    obtain ⟨n, hn, hlen⟩ := hex0
    have hex : ∃ p ∈ assignedNodes link resids,
        (find_atoms mol.nodes linkIgnore p.2).length ≠ 1 :=
      ⟨(n, effAttrs link resids n), List.mem_map.mpr ⟨n, hn, rfl⟩, hlen⟩
    obtain ⟨p, hp, hlen', herr⟩ := resolveNodes_err mol.nodes (assignedNodes link resids) hex
    obtain ⟨n', hn', hpe⟩ := List.mem_map.mp hp
    have hme : matchFailError p.2 = .matchError := by
      rw [← hpe]
      exact matchFailError_eq_matchError _ (hwf n' hn').1 (hwf n' hn').2
    unfold apply_link_between_residues
    rw [herr]
    show Except.error (matchFailError p.2) = _
    rw [hme]
  · intro mol' hok n hn
    unfold apply_link_between_residues at hok
    cases hr : resolveNodes mol.nodes (assignedNodes link resids) with
    | error e =>
        rw [hr] at hok
        exact Except.noConfusion hok
    | ok mapping =>
        exact resolveNodes_ok_len mol.nodes (assignedNodes link resids) mapping hr
          (n, effAttrs link resids n) (List.mem_map.mpr ⟨n, hn, rfl⟩)

/-- Witness for C1: on a molecule with two atoms both named `C1` in residue 1
(a duplicated candidate atom), applying a link whose pattern node queries
atom name `C1` raises `MatchError`. -/
theorem apply_link_match_exactness_witness :
    apply_link_between_residues dupMol dupLink [1] = Except.error ApplyError.matchError :=
  (apply_link_match_exactness dupMol dupLink [1] (by decide)).1 ⟨0, by decide, by decide⟩

theorem convertInters_ok (N : Nat) (l : List Interaction)
    (h : (convertInters N l).2.2 = false) :
    convertInters N l = (l.map convInter, l.map convInter, false) := by
  induction l with
  | nil => rfl
  | cons i rest ih =>
      by_cases hv : atomsValid N (convInter i) = true
      · have hr : (convertInters N rest).2.2 = false := by
          simpa [convertInters, hv] using h
        simp [convertInters, hv, ih hr]
      · simp [convertInters, Bool.eq_false_iff.mpr hv] at h

theorem convertInters_flag_iff (N : Nat) (l : List Interaction) :
    (convertInters N l).2.2 = true ↔ ∃ i ∈ l, atomsValid N (convInter i) = false := by
  induction l with
  | nil => simp [convertInters]
  | cons i rest ih =>
      by_cases hv : atomsValid N (convInter i) = true
      · constructor
        · intro h
          have hr : (convertInters N rest).2.2 = true := by
            simpa [convertInters, hv] using h
          obtain ⟨j, hj, hjv⟩ := ih.mp hr
          exact ⟨j, List.mem_cons_of_mem _ hj, hjv⟩
        · intro hex
          obtain ⟨j, hj, hjv⟩ := hex
          rcases List.mem_cons.mp hj with h1 | h1
          · rw [h1, hv] at hjv
            exact Bool.noConfusion hjv
          · have hr := ih.mpr ⟨j, h1, hjv⟩
            simp [convertInters, hv, hr]
      · have hvf := Bool.eq_false_iff.mpr hv
        constructor
        · intro _
          exact ⟨i, by simp, hvf⟩
        · intro _
          simp [convertInters, hvf]

theorem convertInters_split (N : Nat) (good tail : List Interaction) (bad : Interaction)
    (hgood : ∀ i ∈ good, atomsValid N (convInter i) = true)
    (hbad : atomsValid N (convInter bad) = false) :
    convertInters N (good ++ bad :: tail) =
      (good.map convInter ++ convInter bad :: tail, good.map convInter, true) := by
  induction good with
  | nil => simp [convertInters, hbad]
  | cons i rest ih =>
      have hv : atomsValid N (convInter i) = true := hgood i (by simp)
      have ihh := ih (fun j hj => hgood j (List.mem_cons_of_mem _ hj))
      simp [convertInters, hv, ihh]

theorem aelAux_ok (N : Nat) (L : List (String × List Interaction))
    (h : (aelAux N L).2.2 = false) :
    aelAux N L = (mapInterAtoms (fun a => a - 1) L, mapInterAtoms (fun a => a - 1) L, false) := by
  induction L with
  | nil => rfl
  | cons tb rest ih =>
      obtain ⟨t, l⟩ := tb
      cases hcb : (convertInters N l).2.2 with
      | true => simp [aelAux, hcb] at h
      | false =>
          have hconv := convertInters_ok N l hcb
          have hr : (aelAux N rest).2.2 = false := by
            simpa [aelAux, hcb] using h
          simp [aelAux, hcb, hconv, ih hr, mapInterAtoms, convInter]

theorem aelAux_flag_iff (N : Nat) (L : List (String × List Interaction)) :
    (aelAux N L).2.2 = true ↔
      ∃ tb ∈ L, ∃ i ∈ tb.2, atomsValid N (convInter i) = false := by
  induction L with
  | nil => simp [aelAux]
  | cons tb rest ih =>
      obtain ⟨t, l⟩ := tb
      cases hcb : (convertInters N l).2.2 with
      | true =>
          constructor
          · intro _
            obtain ⟨i, hi, hiv⟩ := (convertInters_flag_iff N l).mp hcb
            exact ⟨(t, l), by simp, i, hi, hiv⟩
          · intro _
            simp [aelAux, hcb]
      | false =>
          constructor
          · intro h
            have hr : (aelAux N rest).2.2 = true := by
              simpa [aelAux, hcb] using h
            obtain ⟨tb', htb, i, hi, hiv⟩ := ih.mp hr
            exact ⟨tb', List.mem_cons_of_mem _ htb, i, hi, hiv⟩
          · intro hex
            obtain ⟨tb', htb, i, hi, hiv⟩ := hex
            rcases List.mem_cons.mp htb with h1 | h1
            · have hc : (convertInters N l).2.2 = true :=
                (convertInters_flag_iff N l).mpr ⟨i, by rw [h1] at hi; exact hi, hiv⟩
              rw [hcb] at hc
              exact Bool.noConfusion hc
            · have hr := ih.mpr ⟨tb', h1, i, hi, hiv⟩
              simp [aelAux, hcb, hr]

theorem aelAux_split (N : Nat) (pre post : List (String × List Interaction)) (t : String)
    (good tail : List Interaction) (bad : Interaction)
    (hpre : ∀ tb ∈ pre, ∀ i ∈ tb.2, atomsValid N (convInter i) = true)
    (hgood : ∀ i ∈ good, atomsValid N (convInter i) = true)
    (hbad : atomsValid N (convInter bad) = false) :
    aelAux N (pre ++ (t, good ++ bad :: tail) :: post) =
      (mapInterAtoms (fun a => a - 1) pre ++
         (t, good.map convInter ++ convInter bad :: tail) :: post,
       mapInterAtoms (fun a => a - 1) pre,
       true) := by
  induction pre with
  | nil =>
      have hsplit := convertInters_split N good tail bad hgood hbad
      simp [aelAux, hsplit, mapInterAtoms]
  | cons tb rest ih =>
      obtain ⟨s, l⟩ := tb
      have hl : ∀ i ∈ l, atomsValid N (convInter i) = true := hpre (s, l) (by simp)
      have hcf : (convertInters N l).2.2 = false := by
        rw [← Bool.not_eq_true]
        intro hx
        obtain ⟨i, hi, hiv⟩ := (convertInters_flag_iff N l).mp hx
        rw [hl i hi] at hiv
        exact Bool.noConfusion hiv
      have hconv := convertInters_ok N l hcf
      have ihh := ih (fun tb' htb => hpre tb' (List.mem_cons_of_mem _ htb))
      simp [aelAux, hcf, hconv, ihh, mapInterAtoms, convInter]

theorem commitExpl_interactions (commits : List (String × List Interaction)) :
    ∀ mol : Molecule,
    (commits.foldl
      (fun m tb => { m with interactions := extendBucket m.interactions tb.1 tb.2 })
      mol).interactions =
      commits.foldl (fun M tb => extendBucket M tb.1 tb.2) mol.interactions := by
  induction commits with
  | nil => intro mol; rfl
  | cons tb rest ih =>
      intro mol
      simp only [List.foldl_cons]
      rw [ih _]

theorem atomsValid_false_iff (N : Nat) (i : Interaction) :
    atomsValid N (convInter i) = false ↔
      ∃ a ∈ i.atoms, ¬(0 ≤ a - 1 ∧ a - 1 < (N : Int)) := by
  rw [Bool.eq_false_iff]
  simp only [atomsValid, convInter, ne_eq, List.all_eq_true, List.mem_map]
  constructor
  · intro h
    push_neg at h
    obtain ⟨x, ⟨a, ha, hax⟩, hx⟩ := h
    refine ⟨a, ha, ?_⟩
    intro hcon
    apply hx
    rw [← hax]
    simp [hcon.1, hcon.2]
  · intro hex
    obtain ⟨a, ha, hna⟩ := hex
    intro hall
    apply hna
    have h2 := hall (a - 1) ⟨a, ha, rfl⟩
    simp only [Bool.and_eq_true, decide_eq_true_eq] at h2
    exact h2

/-- Claim C2: `apply_explicit_link` converts every interaction atom from
1-based to 0-based by subtracting one, and raises a fatal error (the
`IOError`, modelled by the error flag, which `ApplyLinks.run_molecule`
does not catch) exactly when some converted index is not an existing atom
id of the `N`-atom molecule; no interaction is silently skipped — on
success every interaction is appended with its atoms decremented. -/
theorem apply_explicit_link_index_law (mol : Molecule) (link : Link) :
    ((apply_explicit_link mol link).2.2 = true ↔
      ∃ tb ∈ link.interactions, ∃ i ∈ tb.2, ∃ a ∈ i.atoms,
        ¬(0 ≤ a - 1 ∧ a - 1 < (mol.nodes.length : Int))) ∧
    ((apply_explicit_link mol link).2.2 = false →
      (apply_explicit_link mol link).1.interactions =
        (mapInterAtoms (fun a => a - 1) link.interactions).foldl
          (fun M tb => extendBucket M tb.1 tb.2) mol.interactions) := by
  constructor
  · show (aelAux mol.nodes.length link.interactions).2.2 = true ↔ _
    rw [aelAux_flag_iff]
    constructor
    · intro hex
      obtain ⟨tb, htb, i, hi, hiv⟩ := hex
      exact ⟨tb, htb, i, hi, (atomsValid_false_iff _ i).mp hiv⟩
    · intro hex
      obtain ⟨tb, htb, i, hi, hiv⟩ := hex
      exact ⟨tb, htb, i, hi, (atomsValid_false_iff _ i).mpr hiv⟩
  · intro hf
    have h := aelAux_ok mol.nodes.length link.interactions hf
    have hfold : (apply_explicit_link mol link).1.interactions =
        ((aelAux mol.nodes.length link.interactions).2.1).foldl
          (fun M tb => extendBucket M tb.1 tb.2) mol.interactions :=
      commitExpl_interactions _ mol
    rw [hfold, h]

/-- Witness for C2: applying the valid explicit link `expLinkOk` to the
one-atom molecule succeeds and appends its interactions with atoms
converted to 0-based. -/
theorem apply_explicit_link_index_law_witness :
    (apply_explicit_link oneMol expLinkOk).1.interactions =
      (mapInterAtoms (fun a => a - 1) expLinkOk.interactions).foldl
        (fun M tb => extendBucket M tb.1 tb.2) oneMol.interactions :=
  (apply_explicit_link_index_law oneMol expLinkOk).2 (by rfl)

theorem mapInterAtoms_comp (f g : Int → Int) (L : List (String × List Interaction)) :
    mapInterAtoms f (mapInterAtoms g L) = mapInterAtoms (fun a => f (g a)) L := by
  unfold mapInterAtoms
  rw [List.map_map]
  apply List.map_congr_left
  intro tb _
  simp only [Function.comp]
  congr 1
  rw [List.map_map]
  apply List.map_congr_left
  intro i _
  simp only [Function.comp]
  congr 1
  rw [List.map_map]
  rfl

/-- Claim C9: `apply_explicit_link` mutates the link argument itself — each
interaction's atom list inside the link is overwritten in place with the
converted 0-based indices, so the operation is not idempotent on the link:
a second application (e.g. to a second molecule of the system, as
`ApplyLinks.run_molecule` does) decrements every atom index again. -/
theorem apply_explicit_link_mutates_link (mol mol2 mol1 mol3 : Molecule)
    (link link1 link2 : Link)
    (h1 : apply_explicit_link mol link = (mol1, link1, false))
    (h2 : apply_explicit_link mol2 link1 = (mol3, link2, false)) :
    link1.interactions = mapInterAtoms (fun a => a - 1) link.interactions ∧
    link2.interactions = mapInterAtoms (fun a => a - 2) link.interactions := by
  have hf1 : (apply_explicit_link mol link).2.2 = false := by rw [h1]
  have hf2 : (apply_explicit_link mol2 link1).2.2 = false := by rw [h2]
  have ha1 := aelAux_ok mol.nodes.length link.interactions hf1
  have ha2 := aelAux_ok mol2.nodes.length link1.interactions hf2
  have hl1 : link1.interactions = mapInterAtoms (fun a => a - 1) link.interactions := by
    have hp : (apply_explicit_link mol link).2.1 = link1 := by rw [h1]
    rw [← hp]
    show (aelAux mol.nodes.length link.interactions).1 = _
    rw [ha1]
  refine ⟨hl1, ?_⟩
  have hl2 : link2.interactions = mapInterAtoms (fun a => a - 1) link1.interactions := by
    have hp : (apply_explicit_link mol2 link1).2.1 = link2 := by rw [h2]
    rw [← hp]
    show (aelAux mol2.nodes.length link1.interactions).1 = _
    rw [ha2]
  rw [hl2, hl1, mapInterAtoms_comp]
  congr 1
  funext a
  omega

/-- Witness for C9: applying `twoLink` (whose interaction refers to atom 2,
1-based) to the two-atom molecule converts the stored atom to 1; applying
the mutated link again converts it to 0. -/
theorem apply_explicit_link_mutates_link_witness :
    twoLink1.interactions = mapInterAtoms (fun a => a - 1) twoLink.interactions ∧
    twoLink2.interactions = mapInterAtoms (fun a => a - 2) twoLink.interactions :=
  apply_explicit_link_mutates_link twoMol twoMol twoMolR1 twoMolR2 twoLink twoLink1
    twoLink2 (by rfl) (by rfl)

/-- Claim C10: `apply_explicit_link` is not atomic on error — interactions
are committed to the molecule one interaction type at a time, so when an
invalid atom index is found in a later type, the error flag is raised with
all earlier types' converted interactions already committed, while no
interaction of the failing type (nor of any later type) is appended. -/
theorem apply_explicit_link_partial_commit (mol : Molecule) (link : Link)
    (pre post : List (String × List Interaction)) (t : String)
    (good tail : List Interaction) (bad : Interaction)
    (hL : link.interactions = pre ++ (t, good ++ bad :: tail) :: post)
    (hpre : ∀ tb ∈ pre, ∀ i ∈ tb.2, atomsValid mol.nodes.length (convInter i) = true)
    (hgood : ∀ i ∈ good, atomsValid mol.nodes.length (convInter i) = true)
    (hbad : atomsValid mol.nodes.length (convInter bad) = false) :
    (apply_explicit_link mol link).2.2 = true ∧
    (apply_explicit_link mol link).1.interactions =
      (mapInterAtoms (fun a => a - 1) pre).foldl
        (fun M tb => extendBucket M tb.1 tb.2) mol.interactions := by
  have hs := aelAux_split mol.nodes.length pre post t good tail bad hpre hgood hbad
  constructor
  · show (aelAux mol.nodes.length link.interactions).2.2 = true
    rw [hL, hs]
  · have hfold : (apply_explicit_link mol link).1.interactions =
        ((aelAux mol.nodes.length link.interactions).2.1).foldl
          (fun M tb => extendBucket M tb.1 tb.2) mol.interactions :=
      commitExpl_interactions _ mol
    rw [hfold, hL, hs]

/-- Witness for C10: on the one-atom molecule, `expLinkBad`'s first type
(`bonds`, atom 1) is valid and its second type (`angles`, atom 5) is not;
the call errors with the bonds committed and the angles absent. -/
theorem apply_explicit_link_partial_commit_witness :
    (apply_explicit_link oneMol expLinkBad).2.2 = true ∧
    (apply_explicit_link oneMol expLinkBad).1.interactions =
      (mapInterAtoms (fun a => a - 1) [("bonds", [⟨[1], [.lit "x"], []⟩])]).foldl
        (fun M tb => extendBucket M tb.1 tb.2) oneMol.interactions :=
  apply_explicit_link_partial_commit oneMol expLinkBad
    [("bonds", [⟨[1], [.lit "x"], []⟩])] [] "angles" [] [] ⟨[5], [], []⟩
    (by rfl) (by decide) (by decide) (by decide)

theorem get_links_one_kept (meta : MetaMolecule) (edge : Int × Int)
    (res_names : List String) (link : Link) (p : List Link × List (List Int))
    (h : _get_links_one meta edge res_names link = .ok p) :
    ∀ l ∈ p.1, l = link ∧ getAttr link.molecule_meta "explicit" = none ∧
      res_names.getD 0 "" ∈ _get_link_resnames link ∧
      res_names.getD 1 "" ∈ _get_link_resnames link := by
  unfold _get_links_one at h
  by_cases hex : (getAttr link.molecule_meta "explicit").isSome
  · rw [if_pos hex] at h
    have hp : (([], []) : List Link × List (List Int)) = p := by injection h
    intro l hl
    rw [← hp] at hl
    simp at hl
  · rw [if_neg hex] at h
    by_cases hcov : res_names.getD 0 "" ∈ _get_link_resnames link ∧
        res_names.getD 1 "" ∈ _get_link_resnames link
    · rw [if_pos hcov] at h
      cases hg : get_subgraphs meta (ordersOf link) edge with
      | error e =>
          rw [hg] at h
          exact Except.noConfusion h
      | ok gr =>
          rw [hg] at h
          have hp : ((((gr.1.zip gr.2).filter (fun q => is_subgraph meta q.1)).map
                (fun _ => link),
              ((gr.1.zip gr.2).filter (fun q => is_subgraph meta q.1)).map
                (fun q => q.2.map (fun i => i + 1))) :
              List Link × List (List Int)) = p := by injection h
          intro l hl
          rw [← hp] at hl
          obtain ⟨_, _, hl2⟩ := List.mem_map.mp hl
          exact ⟨hl2.symm, Option.not_isSome_iff_eq_none.mp hex, hcov.1, hcov.2⟩
    · rw [if_neg hcov] at h
      have hp : (([], []) : List Link × List (List Int)) = p := by injection h
      intro l hl
      rw [← hp] at hl
      simp at hl

theorem get_links_go_cons (meta : MetaMolecule) (edge : Int × Int)
    (res_names : List String) (link : Link) (rest : List Link) :
    _get_links_go meta edge res_names (link :: rest) = (do
      let h ← _get_links_one meta edge res_names link
      let r ← _get_links_go meta edge res_names rest
      pure (h.1 ++ r.1, h.2 ++ r.2)) := rfl

theorem get_links_go_kept (meta : MetaMolecule) (edge : Int × Int)
    (res_names : List String) (links : List Link) :
    ∀ L R, _get_links_go meta edge res_names links = .ok (L, R) →
    ∀ l ∈ L, getAttr l.molecule_meta "explicit" = none ∧
      res_names.getD 0 "" ∈ _get_link_resnames l ∧
      res_names.getD 1 "" ∈ _get_link_resnames l := by
  induction links with
  | nil =>
      intro L R h l hl
      have hp : (([], []) : List Link × List (List Int)) = (L, R) := by injection h
      have hL : L = [] := by
        have := congrArg Prod.fst hp
        exact this.symm
      rw [hL] at hl
      simp at hl
  | cons link rest ih =>
      intro L R h l hl
      rw [get_links_go_cons] at h
      cases h1 : _get_links_one meta edge res_names link with
      | error e =>
          rw [h1] at h
          exact Except.noConfusion h
      | ok p =>
          rw [h1] at h
          cases h2 : _get_links_go meta edge res_names rest with
          | error e =>
              rw [h2] at h
              exact Except.noConfusion h
          | ok q =>
              rw [h2] at h
              have hp : ((p.1 ++ q.1, p.2 ++ q.2) : List Link × List (List Int)) =
                  (L, R) := by injection h
              have hL : L = p.1 ++ q.1 := (congrArg Prod.fst hp).symm
              rw [hL] at hl
              rcases List.mem_append.mp hl with hm | hm
              · obtain ⟨_, hrest⟩ := get_links_one_kept meta edge res_names link p h1 l hm
                rw [(get_links_one_kept meta edge res_names link p h1 l hm).1]
                exact hrest
              · exact ih q.1 q.2 (by rw [h2]) l hm

/-- Amendment of claim C5 (the part that holds): whenever `_get_links`
returns candidates for a residue-graph edge, every kept link has no
`explicit` entry at all in its `molecule_meta` (a link whose explicit flag is
present but `False` is also dropped, because the falsy value skips the
`continue` but the `elif` carrying the residue-name test is then never
evaluated), and its allowed residue-name set covers both edge residue
names. -/
theorem get_links_kept_necessary (meta : MetaMolecule) (edge : Int × Int)
    (L : List Link) (R : List (List Int))
    (h : _get_links meta edge = .ok (L, R)) :
    ∀ l ∈ L, getAttr l.molecule_meta "explicit" = none ∧
      (get_edge_resname meta edge).getD 0 "" ∈ _get_link_resnames l ∧
      (get_edge_resname meta edge).getD 1 "" ∈ _get_link_resnames l :=
  get_links_go_kept meta edge (get_edge_resname meta edge) meta.force_field.links L R h

/-- Witness for the amended C5: on the A-A meta molecule whose force field
holds the unflagged `noExpLink`, the kept link indeed has no explicit entry
and covers both residue names. -/
theorem get_links_kept_necessary_witness :
    getAttr noExpLink.molecule_meta "explicit" = none ∧
    (get_edge_resname metaNoExp (0, 1)).getD 0 "" ∈ _get_link_resnames noExpLink ∧
    (get_edge_resname metaNoExp (0, 1)).getD 1 "" ∈ _get_link_resnames noExpLink :=
  get_links_kept_necessary metaNoExp (0, 1) [noExpLink] [[1, 2]] (by rfl) noExpLink
    (by simp)

/-- Counterexample to claim C5 as stated: `expFalseLink` carries
`explicit: False` (present but false), its residue-name set covers both
residues of the edge (and the identical link without the flag is kept with
candidate resids [1, 2], so coverage and the order/subgraph test genuinely
succeed here), yet `_get_links` returns no candidate for it — the claim says
a link whose explicit flag is present but false is kept. -/
theorem get_links_explicit_false_cex :
    getAttr expFalseLink.molecule_meta "explicit" = some (.bool false) ∧
    truthy (.bool false) = false ∧
    metaResname metaExpFalse 0 ∈ _get_link_resnames expFalseLink ∧
    metaResname metaExpFalse 1 ∈ _get_link_resnames expFalseLink ∧
    _get_links metaExpFalse (0, 1) = .ok ([], []) ∧
    _get_links metaNoExp (0, 1) = .ok ([noExpLink], [[1, 2]]) :=
  ⟨rfl, rfl, by decide, by decide, rfl, rfl⟩

theorem mem_neighborhood_iff (meta : MetaMolecule) (u : Int) (deg : Nat) (x : Int) :
    x ∈ neighborhood meta u deg ↔
      x ∈ meta.nodeIds ∧ ∃ l, dist meta u x = some l ∧ 0 < l ∧ l ≤ deg := by
  unfold neighborhood
  rw [List.mem_filter]
  constructor
  · intro hp
    obtain ⟨hmem, hp⟩ := hp
    cases hd : dist meta u x with
    | none => rw [hd] at hp; simp at hp
    | some l =>
        rw [hd] at hp
        simp only [Bool.and_eq_true, decide_eq_true_eq] at hp
        exact ⟨hmem, l, rfl, hp.1, hp.2⟩
  · intro hp
    obtain ⟨hmem, l, hd, h1, h2⟩ := hp
    refine ⟨hmem, ?_⟩
    rw [hd]
    simp [h1, h2]

theorem subgraphStep_mem (meta : MetaMolecule) (u : Int) (deg : Nat)
    (acc : List (List Int)) (o : LOrder) (s' : List Int) :
    s' ∈ subgraphStep meta u deg acc o ↔
      ∃ s ∈ acc, ∃ x, orderPred meta u deg o x ∧ s' = s ++ [x] := by
  cases o with
  | fixed k =>
      simp only [subgraphStep, List.mem_map, orderPred]
      constructor
      · intro hp
        obtain ⟨s, hs, he⟩ := hp
        exact ⟨s, hs, u + k, rfl, he.symm⟩
      · intro hp
        obtain ⟨s, hs, x, hx, he⟩ := hp
        exact ⟨s, hs, by rw [he, hx]⟩
  | wild =>
      simp only [subgraphStep, List.mem_flatMap, List.mem_map, orderPred]
      constructor
      · intro hp
        obtain ⟨s, hs, x, hx, he⟩ := hp
        exact ⟨s, hs, x, hx, he.symm⟩
      · intro hp
        obtain ⟨s, hs, x, hx, he⟩ := hp
        exact ⟨s, hs, x, hx, he.symm⟩

theorem foldSteps_mem (meta : MetaMolecule) (u : Int) (deg : Nat) (os : List LOrder) :
    ∀ (acc : List (List Int)) (t : List Int),
      t ∈ os.foldl (subgraphStep meta u deg) acc ↔
        ∃ s ∈ acc, ∃ suf, t = s ++ suf ∧
          List.Forall₂ (orderPred meta u deg) os suf := by
  induction os with
  | nil =>
      intro acc t
      simp only [List.foldl_nil]
      constructor
      · intro ht
        exact ⟨t, ht, [], by simp, List.Forall₂.nil⟩
      · intro hp
        obtain ⟨s, hs, suf, heq, hf⟩ := hp
        cases hf
        rw [heq, List.append_nil]
        exact hs
  | cons o os ih =>
      intro acc t
      rw [List.foldl_cons, ih (subgraphStep meta u deg acc o)]
      constructor
      · intro hp
        obtain ⟨s', hs', suf, heq, hf⟩ := hp
        obtain ⟨s, hs, x, hx, he⟩ := (subgraphStep_mem meta u deg acc o s').mp hs'
        refine ⟨s, hs, x :: suf, ?_, List.Forall₂.cons hx hf⟩
        rw [heq, he, List.append_assoc]
        rfl
      · intro hp
        obtain ⟨s, hs, suf, heq, hf⟩ := hp
        cases hf with
        | cons hx hf' =>
            rename_i x suf'
            refine ⟨s ++ [x], (subgraphStep_mem meta u deg acc o (s ++ [x])).mpr
              ⟨s, hs, x, hx, rfl⟩, suf', ?_, hf'⟩
            rw [heq, List.append_assoc]
            rfl

theorem buildIdxss_mem (meta : MetaMolecule) (orders : List LOrder) (u : Int)
    (t : List Int) :
    t ∈ buildIdxss meta orders u ↔
      List.Forall₂ (orderPred meta u (orders.length - 1)) orders t := by
  unfold buildIdxss
  rw [foldSteps_mem meta u (orders.length - 1) orders [[]] t]
  constructor
  · intro hp
    obtain ⟨s, hs, suf, heq, hf⟩ := hp
    have hs0 : s = [] := by simpa using hs
    rw [hs0] at heq
    rw [heq]
    simpa using hf
  · intro hf
    exact ⟨[], by simp, t, by simp, hf⟩

/-- Amendment of claim C6: for a link pattern with wildcard orders, the
candidate residue-id tuples are exactly the Cartesian product in which each
fixed-order position `i` holds `edge[0] + order_i` and each wildcard position
holds a residue at shortest-path distance `l` from `edge[0]` with
`0 < l ≤ len(orders) − 1` — the bound is the total number of pattern nodes
minus one (not the number of distinct order values minus one), and `edge[0]`
itself (distance 0) is excluded. -/
theorem get_subgraphs_product (meta : MetaMolecule) (orders : List LOrder)
    (edge : Int × Int) (gs : List (List (Int × Int))) (idxss : List (List Int))
    (h : get_subgraphs meta orders edge = .ok (gs, idxss)) (t : List Int) :
    t ∈ idxss ↔
      List.Forall₂ (orderPredDist meta edge.1 (orders.length - 1)) orders t := by
  unfold get_subgraphs at h
  by_cases h0 : orders.contains (LOrder.fixed 0)
  · rw [if_pos h0] at h
    have hp : ((buildIdxss meta orders edge.1).map pathGraphOf,
        buildIdxss meta orders edge.1) = (gs, idxss) := by injection h
    have hix : idxss = buildIdxss meta orders edge.1 := (congrArg Prod.snd hp).symm
    rw [hix, buildIdxss_mem]
    constructor
    · intro hf
      refine List.Forall₂.imp ?_ hf
      intro o x hx
      cases o with
      | fixed k => exact hx
      | wild =>
          exact (mem_neighborhood_iff meta edge.1 (orders.length - 1) x).mp hx
    · intro hf
      refine List.Forall₂.imp ?_ hf
      intro o x hx
      cases o with
      | fixed k => exact hx
      | wild =>
          exact (mem_neighborhood_iff meta edge.1 (orders.length - 1) x).mpr hx
  · rw [if_neg h0] at h
    exact Except.noConfusion h

/-- Witness for the amended C6: the candidate `[0, 0, 2]` produced for the
edge (0, 1) of the 0-1-2 path with orders `(0, 0, *)` satisfies the
characterization — its wildcard entry 2 sits at distance 2 = len(orders)−1. -/
theorem get_subgraphs_product_witness :
    List.Forall₂
      (orderPredDist pathMeta 0
        ([LOrder.fixed 0, LOrder.fixed 0, LOrder.wild].length - 1))
      [LOrder.fixed 0, LOrder.fixed 0, LOrder.wild] [0, 0, 2] :=
  (get_subgraphs_product pathMeta [LOrder.fixed 0, LOrder.fixed 0, LOrder.wild] (0, 1)
    [[(0, 1)], [(0, 2)]] [[0, 0, 1], [0, 0, 2]] (by rfl) [0, 0, 2]).mp (by decide)

/-- Counterexample to claim C6 as stated: with orders `(0, 0, *)` there are
two distinct order values, so the claim's bound is `2 − 1 = 1`; yet on the
path 0-1-2 the code enumerates the wildcard over
`neighborhood(meta, 0, len(orders) − 1 = 2)` and produces the candidate
tuple `[0, 0, 2]` whose wildcard entry lies at shortest-path distance 2,
which exceeds the claimed bound. -/
theorem get_subgraphs_distance_cex :
    get_subgraphs pathMeta [LOrder.fixed 0, LOrder.fixed 0, LOrder.wild] (0, 1) =
      .ok ([[(0, 1)], [(0, 2)]], [[0, 0, 1], [0, 0, 2]]) ∧
    [LOrder.fixed 0, LOrder.fixed 0, LOrder.wild].dedup.length - 1 = 1 ∧
    dist pathMeta 0 2 = some 2 ∧
    ¬((2 : Nat) ≤ 1) :=
  ⟨by rfl, by decide, by decide, by decide⟩

/-- Claim C7 exhibits a code bug: expanding the two-residue block `mixBlock`
(resids 1 and 2, N = 2 distinct resids) at residue-graph node k = 2 of the
four-node chain 0-1-2-3 renumbers node 3 to 4 correctly, but the
`if resid != meta_mol_node` guard in `node_to_resid` maps block residue 1 to
`1 + 2 - 1 = 2` and block residue 2 (which equals k) to 2 as well, so both
block residues collapse onto node 2: the resulting graph still has 4 nodes
(the claim requires 4 + (N−1) = 5), its ids {0, 1, 2, 4} are not contiguous,
and the block's inter-residue bond becomes a self-loop that is dropped — no
residue-graph edge between the two new residues appears. -/
theorem expand_meta_graph_k2_bug :
    (expand_meta_graph mixMeta mixBlock 2).nodes.map (·.1) = [0, 1, 2, 4] ∧
    (expand_meta_graph mixMeta mixBlock 2).nodes.length = mixMeta.nodes.length ∧
    ((mixBlock.atoms.map (blockResid mixBlock)).dedup).length = 2 ∧
    ¬((expand_meta_graph mixMeta mixBlock 2).nodes.length =
        mixMeta.nodes.length + (2 - 1)) ∧
    node_to_resid mixBlock 2 0 = 2 ∧ node_to_resid mixBlock 2 1 = 2 ∧
    (expand_meta_graph mixMeta mixBlock 2).edges = [(0, 1), (1, 2), (2, 4)] :=
  ⟨by decide, by decide, by decide, by decide, by decide, by decide, by decide⟩

theorem hrwAux_attempts (oracle : Nat → Bool) :
    ∀ n i, (hrwAux oracle n i).2 ≤ i + n + 1 := by
  intro n
  induction n with
  | zero =>
      intro i
      cases h : oracle i <;> simp [hrwAux, h] <;> omega
  | succ n ih =>
      intro i
      have hh := ih (i + 1)
      cases h : oracle i <;> simp [hrwAux, h] <;> omega

theorem hrwAux_allfalse : ∀ n i, (hrwAux (fun _ => false) n i).1 = false := by
  intro n
  induction n with
  | zero => intro i; simp [hrwAux]
  | succ n ih => intro i; simp [hrwAux, ih]

theorem composeRun_allfalse (maxiter molTot : Nat) (h : 0 < molTot) :
    ∀ (n j : Nat) (x : ℚ),
      composeRun maxiter molTot (fun _ _ => false) n ⟨0, j, x⟩ =
        ⟨0, j + n, x * (11 / 10) ^ n⟩ := by
  intro n
  induction n with
  | zero =>
      intro j x
      simp [composeRun]
  | succ n ih =>
      intro j x
      show composeRun maxiter molTot (fun _ _ => false) n
        (composeStep maxiter molTot (fun _ _ => false) ⟨0, j, x⟩) = _
      have hstep : composeStep maxiter molTot (fun _ _ => false) ⟨0, j, x⟩ =
          ⟨0, j + 1, x * (11 / 10)⟩ := by
        unfold composeStep
        rw [if_pos h]
        have hw : (handle_random_walk maxiter ((fun _ _ => false) (0 + j))).1 = false :=
          hrwAux_allfalse maxiter 0
        rw [hw]
        rfl
      rw [hstep, ih (j + 1) (x * (11 / 10))]
      have h1 : j + 1 + n = j + (n + 1) := by omega
      have h2 : x * (11 / 10) * (11 / 10 : ℚ) ^ n = x * (11 / 10) ^ (n + 1) := by
        rw [pow_succ]
        ring
      rw [h1, h2]

/-- Amendment of claim C3: only the per-molecule retry loop inside
`_handle_random_walk` is bounded — it makes at most `maxiter + 1` placement
attempts before returning failure.  The system-level rescale-and-retry loop
of `_compose_system` is not bounded by any configuration: when the walk for
a molecule keeps failing, the loop rescales and retries the same molecule
indefinitely (after `n` iterations it has performed exactly `n` rescale
rounds, the molecule index has not advanced, and the box edge has grown by
`1.1^n`), and no build failure is ever reported. -/
theorem compose_rescale_amended (maxiter molTot : Nat) (oracle : Nat → Bool) (d : ℚ)
    (h : 0 < molTot) :
    (handle_random_walk maxiter oracle).2 ≤ maxiter + 1 ∧
    ∀ n, composeRun maxiter molTot (fun _ _ => false) n ⟨0, 0, d⟩ =
      ⟨0, n, d * (11 / 10) ^ n⟩ := by
  constructor
  · have := hrwAux_attempts oracle maxiter 0
    simpa [handle_random_walk] using this
  · intro n
    have := composeRun_allfalse maxiter molTot h n 0 d
    simpa using this

/-- Witness for the amended C3: with `maxiter = 2` the walk handler stops
after at most 3 attempts, and four failing outer iterations of the compose
loop perform four rescale rounds without advancing the molecule index. -/
theorem compose_rescale_amended_witness :
    (handle_random_walk 2 (fun _ => false)).2 ≤ 2 + 1 ∧
    composeRun 2 1 (fun _ _ => false) 4 ⟨0, 0, 1⟩ = ⟨0, 4, 1 * (11 / 10) ^ 4⟩ :=
  ⟨(compose_rescale_amended 2 1 (fun _ => false) 1 (by decide)).1,
   (compose_rescale_amended 2 1 (fun _ => false) 1 (by decide)).2 4⟩

/-- Counterexample to claim C3 as stated: with `maxiter = 1` configured and a
placement walk that never succeeds, five iterations of the `_compose_system`
loop have already performed five rescale rounds — more than the configured
maximum of attempts — while the molecule index is still 0: the loop neither
stops at the configured budget nor reports a build failure (the loop state
carries no failure outcome at all), so the total number of rescale rounds is
not capped by the configuration. -/
theorem compose_rescale_unbounded_cex :
    (composeRun 1 1 (fun _ _ => false) 5 ⟨0, 0, 1⟩).rescales = 5 ∧
    (composeRun 1 1 (fun _ _ => false) 5 ⟨0, 0, 1⟩).molIdx = 0 ∧
    ¬((5 : Nat) ≤ 1) :=
  ⟨by rfl, by rfl, by decide⟩

/-- Claim C4 exhibits a code bug: on a placement failure the box edge is
indeed multiplied by the fixed factor 1.1 and the same molecule is retried,
but `_rescale_system`'s `return positions` sits inside its `for` loop, so
only the first molecule whose node 0 has a position is translated.  With two
placed one-atom molecules and `u_vect` instantiated to the identity
direction function, the first molecule moves from (1,0,0) to (21/10,0,0)
while the second stays at (0,1,0) instead of moving to its translated
position (0,21/10,0) as the claim requires for every placed molecule. -/
theorem rescale_system_first_only_bug :
    (_rescale_system (fun v => v) twoPlaced (11 / 10) twoPlacedGndx twoPlacedPos).1 =
      [[some ((21 / 10 : ℚ), (0 : ℚ), (0 : ℚ))], [some ((0 : ℚ), (1 : ℚ), (0 : ℚ))]] ∧
    vadd (0, 1, 0) (vsmul (11 / 10) ((fun v => v) ((0 : ℚ), (1 : ℚ), (0 : ℚ)))) =
      ((0 : ℚ), (21 / 10 : ℚ), (0 : ℚ)) ∧
    ((0 : ℚ), (1 : ℚ), (0 : ℚ)) ≠ ((0 : ℚ), (21 / 10 : ℚ), (0 : ℚ)) := by
  refine ⟨?_, ?_, ?_⟩
  · norm_num [_rescale_system, rescaleAux, updTable, vadd, vsmul, twoPlaced,
      twoPlacedGndx, twoPlacedPos, gndx]
  · norm_num [vadd, vsmul]
  · norm_num [Prod.ext_iff]

end Polyply
